import Mathlib

/-!
Verification development for the CUDAProb3 oscillation-probability engine
(`physics.hpp`, `propagator.hpp`, `cpupropagator.hpp`).

The C++ source is shallowly embedded over an arbitrary linear ordered field
`α` playing the role of the `FLOAT_T` scalar type.  The transcendental
library functions (`sqrt`, `acos`, `cos`, `sin`, the constant `M_PI`) and
the physical constants from the missing `constants.hpp`
(`tworttwoGf`, `REarth`, `REarthcm`, `km2cm`) are bundled in a parameter
structure `Prims`, so that every definition stays executable; theorems may
instantiate them with the genuine real-analytic functions where a concrete
numeric fact is needed.
-/

set_option maxHeartbeats 1000000
set_option linter.unusedSectionVars false
set_option linter.unnecessarySeqFocus false

namespace CudaProb3

/-- Complex number with separate real and imaginary components, mirroring
`math::ComplexNumber<FLOAT_T>` from `math.hpp`. -/
structure CNum (α : Type) where
  re : α
  im : α
  deriving DecidableEq, Repr

namespace CNum

variable {α : Type} [LinearOrderedField α]

/-- Componentwise addition. -/
def add (x y : CNum α) : CNum α := ⟨x.re + y.re, x.im + y.im⟩

/-- Complex multiplication. -/
def mul (x y : CNum α) : CNum α := ⟨x.re * y.re - x.im * y.im, x.re * y.im + x.im * y.re⟩

/-- Componentwise negation. -/
def neg (x : CNum α) : CNum α := ⟨-x.re, -x.im⟩

/-- Complex conjugate. -/
def conj (x : CNum α) : CNum α := ⟨x.re, -x.im⟩

/-- Embedding of the scalar type into the complex type. -/
def ofReal (x : α) : CNum α := ⟨x, 0⟩

/-- Division of a complex number by a real scalar, as the componentwise
`/=` used in `get_product`. -/
def divR (x : CNum α) (d : α) : CNum α := ⟨x.re / d, x.im / d⟩

/-- Squared magnitude `re*re + im*im`. -/
def normSq (x : CNum α) : α := x.re * x.re + x.im * x.im

instance : Zero (CNum α) := ⟨⟨0, 0⟩⟩
instance : One (CNum α) := ⟨⟨1, 0⟩⟩
instance : Add (CNum α) := ⟨add⟩
instance : Mul (CNum α) := ⟨mul⟩
instance : Neg (CNum α) := ⟨neg⟩

@[simp] lemma zero_re : (0 : CNum α).re = 0 := rfl
@[simp] lemma zero_im : (0 : CNum α).im = 0 := rfl
@[simp] lemma one_re : (1 : CNum α).re = 1 := rfl
@[simp] lemma one_im : (1 : CNum α).im = 0 := rfl
@[simp] lemma add_re (x y : CNum α) : (x + y).re = x.re + y.re := rfl
@[simp] lemma add_im (x y : CNum α) : (x + y).im = x.im + y.im := rfl
@[simp] lemma mul_re (x y : CNum α) : (x * y).re = x.re * y.re - x.im * y.im := rfl
@[simp] lemma mul_im (x y : CNum α) : (x * y).im = x.re * y.im + x.im * y.re := rfl
@[simp] lemma neg_re (x : CNum α) : (-x).re = -x.re := rfl
@[simp] lemma neg_im (x : CNum α) : (-x).im = -x.im := rfl
@[simp] lemma conj_re (x : CNum α) : (conj x).re = x.re := rfl
@[simp] lemma conj_im (x : CNum α) : (conj x).im = -x.im := rfl
@[simp] lemma ofReal_re (x : α) : (ofReal x).re = x := rfl
@[simp] lemma ofReal_im (x : α) : (ofReal x).im = 0 := rfl

lemma ext_iff {x y : CNum α} : x = y ↔ x.re = y.re ∧ x.im = y.im := by
  constructor
  · rintro rfl; exact ⟨rfl, rfl⟩
  · rintro ⟨h1, h2⟩; cases x; cases y; simp_all

instance instCommRing : CommRing (CNum α) where
  add_assoc a b c := by simp [ext_iff]; constructor <;> ring
  zero_add a := by simp [ext_iff]
  add_zero a := by simp [ext_iff]
  add_comm a b := by simp [ext_iff]; constructor <;> ring
  left_distrib a b c := by simp [ext_iff]; constructor <;> ring
  right_distrib a b c := by simp [ext_iff]; constructor <;> ring
  zero_mul a := by simp [ext_iff]
  mul_zero a := by simp [ext_iff]
  mul_assoc a b c := by simp [ext_iff]; constructor <;> ring
  one_mul a := by simp [ext_iff]
  mul_one a := by simp [ext_iff]
  neg_add_cancel a := by simp [ext_iff]
  mul_comm a b := by simp [ext_iff]; constructor <;> ring
  nsmul := nsmulRec
  zsmul := zsmulRec

@[simp] lemma sub_re (x y : CNum α) : (x - y).re = x.re - y.re := by
  rw [sub_eq_add_neg, add_re, neg_re, ← sub_eq_add_neg]

@[simp] lemma sub_im (x y : CNum α) : (x - y).im = x.im - y.im := by
  rw [sub_eq_add_neg, add_im, neg_im, ← sub_eq_add_neg]

instance : StarRing (CNum α) where
  star := conj
  star_involutive x := by cases x; simp [conj]
  star_mul x y := by
    rw [ext_iff]
    constructor <;> simp [conj] <;> ring
  star_add x y := by
    rw [ext_iff]
    constructor <;> simp [conj] <;> ring

end CNum

/-- `NeutrinoType` tag from `types.hpp` (missing from `src/`; the spec
describes it as the tag `{Neutrino, Antineutrino}`). -/
inductive NeutrinoType where
  | Neutrino
  | Antineutrino
  deriving DecidableEq, Repr

/-- Modelled from the spec: `productionHeight_prob_list` is indexed by
`(neutrino-type, flavor, energy-bin, cosine-bin, height-bin)`; the type
coordinate distinguishes the two `NeutrinoType` values, matching the
`2 (nu,nubar)` factor documented at the `calculate` parameter list. -/
def NeutrinoType.idx : NeutrinoType → ℕ
  | .Neutrino => 0
  | .Antineutrino => 1

/-- The mathematical primitives and physical constants the engine depends
on: `sqrtF`, `acosF`, `cosF`, `sinF` stand for the C library `sqrt`, `acos`,
`cos`, `sin`; `piF` for `M_PI`; `G` for `Constants::tworttwoGf()`;
`REarth`/`REarthcm` for the earth radius in km/cm; `km2cm` for the km-to-cm
conversion (`constants.hpp` is not part of `src/`). -/
structure Prims (α : Type) where
  sqrtF : α → α
  acosF : α → α
  cosF : α → α
  sinF : α → α
  piF : α
  G : α
  REarth : α
  REarthcm : α
  km2cm : α

variable {α : Type} [LinearOrderedField α]

/-! ### Matter eigenstate solver (`prepare_getMfast` and `getMfast`) -/

/-- The matter-potential factor of Equations (22) of Barger et al.:
`±tworttwoGf·E·rho`, positive for antineutrinos. -/
def facOf (P : Prims α) (type : NeutrinoType) (E rho : α) : α :=
  match type with
  | .Antineutrino => P.G * E * rho
  | .Neutrino => -(P.G * E * rho)

/-- `alpha` of `getMfast`: `fac + DM(0,1) + DM(0,2)`. -/
def mfAlpha (P : Prims α) (DM : Fin 3 → Fin 3 → α) (type : NeutrinoType) (E rho : α) : α :=
  facOf P type E rho + DM 0 1 + DM 0 2

/-- `beta` of `getMfast`. -/
def mfBeta (P : Prims α) (U : Fin 3 → Fin 3 → CNum α) (DM : Fin 3 → Fin 3 → α)
    (type : NeutrinoType) (E rho : α) : α :=
  DM 0 1 * DM 0 2 +
    facOf P type E rho *
      (DM 0 1 * (1 - (U 0 1).re * (U 0 1).re - (U 0 1).im * (U 0 1).im) +
       DM 0 2 * (1 - (U 0 2).re * (U 0 2).re - (U 0 2).im * (U 0 2).im))

/-- `gamma` of `getMfast`. -/
def mfGamma (P : Prims α) (U : Fin 3 → Fin 3 → CNum α) (DM : Fin 3 → Fin 3 → α)
    (type : NeutrinoType) (E rho : α) : α :=
  facOf P type E rho * DM 0 1 * DM 0 2 * ((U 0 0).re * (U 0 0).re + (U 0 0).im * (U 0 0).im)

/-- `tmp` of `getMfast`: `alpha*alpha - 3*beta`, clamped below at `0`. -/
def mfTmp (P : Prims α) (U : Fin 3 → Fin 3 → CNum α) (DM : Fin 3 → Fin 3 → α)
    (type : NeutrinoType) (E rho : α) : α :=
  let a := mfAlpha P DM type E rho
  let b := mfBeta P U DM type E rho
  if a * a - 3 * b < 0 then 0 else a * a - 3 * b

/-- `argtmp` of `getMfast` (Equation (21)), before the clamp. -/
def mfArgtmp (P : Prims α) (U : Fin 3 → Fin 3 → CNum α) (DM : Fin 3 → Fin 3 → α)
    (type : NeutrinoType) (E rho : α) : α :=
  let a := mfAlpha P DM type E rho
  let b := mfBeta P U DM type E rho
  let g := mfGamma P U DM type E rho
  let t := mfTmp P U DM type E rho
  (2 * a * a * a - 9 * a * b + 27 * g) / (2 * P.sqrtF (t * t * t))

/-- `arg` of `getMfast`: `argtmp` clamped to `[-1,1]` by
`if (fabs(argtmp)>1.0) argtmp/fabs(argtmp)`. -/
def mfArg (P : Prims α) (U : Fin 3 → Fin 3 → CNum α) (DM : Fin 3 → Fin 3 → α)
    (type : NeutrinoType) (E rho : α) : α :=
  let at' := mfArgtmp P U DM type E rho
  if 1 < |at'| then at' / |at'| else at'

/-- The three angles `theta0`, `theta1`, `theta2` of `getMfast`. -/
def mfTheta (P : Prims α) (U : Fin 3 → Fin 3 → CNum α) (DM : Fin 3 → Fin 3 → α)
    (type : NeutrinoType) (E rho : α) : Fin 3 → α :=
  let t0 := P.acosF (mfArg P U DM type E rho) / 3
  fun k =>
    if k = 0 then t0
    else if k = 1 then t0 - 2 * P.piF / 3
    else t0 + 2 * P.piF / 3

/-- The unsorted matter masses `mMatU` of `getMfast`. -/
def mMatU (P : Prims α) (U : Fin 3 → Fin 3 → CNum α) (DM : Fin 3 → Fin 3 → α)
    (type : NeutrinoType) (E rho : α) : Fin 3 → α := fun k =>
  -(2 / 3) * P.sqrtF (mfTmp P U DM type E rho) * P.cosF (mfTheta P U DM type E rho k) +
    (DM 0 0 - mfAlpha P DM type E rho / 3)

/-- The sorted matter masses `mMat[i] = mMatU[ORDER(i)]` of `getMfast`. -/
def mMat (P : Prims α) (U : Fin 3 → Fin 3 → CNum α) (DM : Fin 3 → Fin 3 → α)
    (order : Fin 3 → Fin 3) (type : NeutrinoType) (E rho : α) : Fin 3 → α := fun i =>
  mMatU P U DM type E rho (order i)

/-- `d_dmMatMat[i][j] = mMat[i] - mMat[j]` returned by `getMfast`. -/
def dmMatMat (P : Prims α) (U : Fin 3 → Fin 3 → CNum α) (DM : Fin 3 → Fin 3 → α)
    (order : Fin 3 → Fin 3) (type : NeutrinoType) (E rho : α) : Fin 3 → Fin 3 → α := fun i j =>
  mMat P U DM order type E rho i - mMat P U DM order type E rho j

/-- `d_dmMatVac[i][j] = mMat[i] - DM(j,0)` returned by `getMfast`. -/
def dmMatVac (P : Prims α) (U : Fin 3 → Fin 3 → CNum α) (DM : Fin 3 → Fin 3 → α)
    (order : Fin 3 → Fin 3) (type : NeutrinoType) (E rho : α) : Fin 3 → Fin 3 → α := fun i j =>
  mMat P U DM order type E rho i - DM j 0

/-! `prepare_getMfast`: the vacuum variant of the same cubic, used to
derive the `mass_order` permutation before any per-bin work. -/

/-- `alphaV` of `prepare_getMfast`. -/
def pvAlpha (DM : Fin 3 → Fin 3 → α) : α := DM 0 1 + DM 0 2

/-- `betaV` of `prepare_getMfast`. -/
def pvBeta (DM : Fin 3 → Fin 3 → α) : α := DM 0 1 * DM 0 2

/-- `tmpV` of `prepare_getMfast` (no clamp at zero here, unlike `getMfast`). -/
def pvTmp (DM : Fin 3 → Fin 3 → α) : α := pvAlpha DM * pvAlpha DM - 3 * pvBeta DM

/-- `argV` of `prepare_getMfast` before the clamp (`gammaV` is `0`). -/
def pvArgtmp (P : Prims α) (DM : Fin 3 → Fin 3 → α) : α :=
  (2 * pvAlpha DM * pvAlpha DM * pvAlpha DM - 9 * pvAlpha DM * pvBeta DM + 27 * 0) /
    (2 * P.sqrtF (pvTmp DM * pvTmp DM * pvTmp DM))

/-- `argV` of `prepare_getMfast` after the clamp
`if (fabs(argV)>1.0) argV = argV/fabs(argV)`. -/
def pvArg (P : Prims α) (DM : Fin 3 → Fin 3 → α) : α :=
  if 1 < |pvArgtmp P DM| then pvArgtmp P DM / |pvArgtmp P DM| else pvArgtmp P DM

/-- The three vacuum angles of `prepare_getMfast`. -/
def pvTheta (P : Prims α) (DM : Fin 3 → Fin 3 → α) : Fin 3 → α :=
  let t0 := P.acosF (pvArg P DM) / 3
  fun k =>
    if k = 0 then t0
    else if k = 1 then t0 - 2 * P.piF / 3
    else t0 + 2 * P.piF / 3

/-- The vacuum masses `mMatV` of `prepare_getMfast`. -/
def mMatV (P : Prims α) (DM : Fin 3 → Fin 3 → α) : Fin 3 → α := fun k =>
  -(2 / 3) * P.sqrtF (pvTmp DM) * P.cosF (pvTheta P DM k) + (DM 0 0 - pvAlpha DM / 3)

/-- The `mass_order` permutation computed by `prepare_getMfast`: for each
`i`, the index `k` minimising `|DM(i,0) - mMatV[k]|`, first minimum
winning (the inner loop replaces `k` only on a strict decrease). -/
def prepareOrder (P : Prims α) (DM : Fin 3 → Fin 3 → α) : Fin 3 → Fin 3 := fun i =>
  let d : Fin 3 → α := fun j => |DM i 0 - mMatV P DM j|
  let k1 : Fin 3 := if d 1 < d 0 then 1 else 0
  if d 2 < d k1 then 2 else k1

/-! ### Single-layer transition engine (`get_product`, `getArg`, `getC`, `getA`) -/

/-- The matrices `2EH - M_j` of `get_product`: `-fac·U(0,n)·conj(U(0,m))`
with `d_dmMatVac[j][n]` subtracted on the diagonal.  Index order is
`[n][m][j]` as in the source. -/
def twoEHmM (P : Prims α) (U : Fin 3 → Fin 3 → CNum α) (dmV : Fin 3 → Fin 3 → α)
    (type : NeutrinoType) (E rho : α) : Fin 3 → Fin 3 → Fin 3 → CNum α := fun n m j =>
  let fac := facOf P type E rho
  ⟨-fac * ((U 0 n).re * (U 0 m).re + (U 0 n).im * (U 0 m).im) -
      (if n = m then dmV j n else 0),
   -fac * ((U 0 n).re * (U 0 m).im - (U 0 n).im * (U 0 m).re)⟩

/-- `get_product` (Eq. (11) of Barger et al.): the three spectral
projector matrices; index order `[i][j][k]` with `k` the expansion index.
The `L` argument is accepted and unused, exactly as in the source. -/
def get_product (P : Prims α) (U : Fin 3 → Fin 3 → CNum α)
    (_L E rho : α) (dmV dmM : Fin 3 → Fin 3 → α)
    (type : NeutrinoType) : Fin 3 → Fin 3 → Fin 3 → CNum α := fun i j k =>
  let T := twoEHmM P U dmV type E rho
  let num : CNum α := ∑ l : Fin 3, T i l (k + 1) * T l j (k + 2)
  num.divR (dmM k (k + 1) * dmM k (k + 2))

/-- `(1/2)*(1/(h_bar*c))` in units of GeV/(eV²·km), the literal `2.534`. -/
def LoEfac : α := 2.534

/-- `getArg`: the three phase arguments of the spectral expansion
`A = Σ_k C_k·exp(i·arg_k)`; the `phase_offset` is added to `arg[2]` only. -/
def getArg (L E : α) (dmV : Fin 3 → Fin 3 → α) (phase_offset : α) : Fin 3 → α := fun k =>
  -LoEfac * dmV k 0 * L / E + (if k = 2 then phase_offset else 0)

/-- `getC`: the three coefficient matrices of the spectral expansion,
index order `[iExp][iNuFlav][jNuFlav]`.  The local `product` array is
filled by `get_product` only when `phase_offset == 0.0`; otherwise the
stack array stays uninitialized, modelled by the free parameter `junk`. -/
def getC (P : Prims α) (U : Fin 3 → Fin 3 → CNum α) (E rho : α)
    (dmV dmM : Fin 3 → Fin 3 → α) (type : NeutrinoType) (phase_offset : α)
    (junk : Fin 3 → Fin 3 → Fin 3 → CNum α) : Fin 3 → Fin 3 → Fin 3 → CNum α :=
  fun k n m =>
  let product : Fin 3 → Fin 3 → Fin 3 → CNum α :=
    if phase_offset = 0 then get_product P U (0/0) E rho dmV dmM type else junk
  let RR : Fin 3 → α := fun j => ∑ i : Fin 3, (U n i).re * (product i j k).re
  let RI : Fin 3 → α := fun j => ∑ i : Fin 3, (U n i).re * (product i j k).im
  let IR : Fin 3 → α := fun j => ∑ i : Fin 3, (U n i).im * (product i j k).re
  let II : Fin 3 → α := fun j => ∑ i : Fin 3, (U n i).im * (product i j k).im
  ⟨∑ j : Fin 3,
      (RR j * (U m j).re + RI j * (U m j).im + IR j * (U m j).im - II j * (U m j).re),
   ∑ j : Fin 3,
      (II j * (U m j).im + IR j * (U m j).re + RI j * (U m j).re - RR j * (U m j).im)⟩

/-- The factor `AXFAC(n,m,i,j,0)` precomputed by `setMixMatrix`. -/
def axfac0 (U : Fin 3 → Fin 3 → CNum α) (n m i j : Fin 3) : α :=
  (U n i).re * (U m j).re + (U n i).im * (U m j).im

/-- The factor `AXFAC(n,m,i,j,1)` precomputed by `setMixMatrix`. -/
def axfac1 (U : Fin 3 → Fin 3 → CNum α) (n m i j : Fin 3) : α :=
  (U n i).re * (U m j).im - (U n i).im * (U m j).re

/-- The factor `AXFAC(n,m,i,j,2)` precomputed by `setMixMatrix`. -/
def axfac2 (U : Fin 3 → Fin 3 → CNum α) (n m i j : Fin 3) : α :=
  (U n i).im * (U m j).im + (U n i).re * (U m j).re

/-- The factor `AXFAC(n,m,i,j,3)` precomputed by `setMixMatrix`. -/
def axfac3 (U : Fin 3 → Fin 3 → CNum α) (n m i j : Fin 3) : α :=
  (U n i).im * (U m j).re - (U n i).re * (U m j).im

/-- `getA`: the direct 3×3 transition amplitude, summing the three
spectral terms with their `exp(i·arg_k)` factors (Eq. (10)/(11)); the
local `product` array is filled only when `phase_offset == 0.0`. -/
def getA (P : Prims α) (U : Fin 3 → Fin 3 → CNum α) (L E rho : α)
    (dmV dmM : Fin 3 → Fin 3 → α) (type : NeutrinoType) (phase_offset : α)
    (junk : Fin 3 → Fin 3 → Fin 3 → CNum α) : Fin 3 → Fin 3 → CNum α := fun n m =>
  let product : Fin 3 → Fin 3 → Fin 3 → CNum α :=
    if phase_offset = 0 then get_product P U L E rho dmV dmM type else junk
  let arg : Fin 3 → α := fun k =>
    if k = 2 then -LoEfac * dmV k 0 * L / E + phase_offset
    else -LoEfac * dmV k 0 * L / E
  let X : Fin 3 → Fin 3 → CNum α := fun i j =>
    ∑ k : Fin 3,
      (⟨P.cosF (arg k) * (product i j k).re - P.sinF (arg k) * (product i j k).im,
        P.cosF (arg k) * (product i j k).im + P.sinF (arg k) * (product i j k).re⟩ : CNum α)
  ∑ i : Fin 3, ∑ j : Fin 3,
    (⟨axfac0 U n m i j * (X i j).re + axfac1 U n m i j * (X i j).im,
      axfac2 U n m i j * (X i j).im + axfac3 U n m i j * (X i j).re⟩ : CNum α)

/-- `get_transition_matrix`: `getMfast` followed by `getA`. -/
def get_transition_matrix (P : Prims α) (U : Fin 3 → Fin 3 → CNum α)
    (DM : Fin 3 → Fin 3 → α) (order : Fin 3 → Fin 3) (type : NeutrinoType)
    (Enu rho Len phase_offset : α) (junk : Fin 3 → Fin 3 → Fin 3 → CNum α) :
    Fin 3 → Fin 3 → CNum α :=
  getA P U Len Enu rho (dmMatVac P U DM order type Enu rho)
    (dmMatMat P U DM order type Enu rho) type phase_offset junk

/-- `get_transition_matrix_expansion`: `getMfast` followed by `getArg`
and `getC`; returns the pair `(Arg, Cout)`. -/
def get_transition_matrix_expansion (P : Prims α) (U : Fin 3 → Fin 3 → CNum α)
    (DM : Fin 3 → Fin 3 → α) (order : Fin 3 → Fin 3) (type : NeutrinoType)
    (Enu rho Len phase_offset : α) (junk : Fin 3 → Fin 3 → Fin 3 → CNum α) :
    (Fin 3 → α) × (Fin 3 → Fin 3 → Fin 3 → CNum α) :=
  (getArg Len Enu (dmMatVac P U DM order type Enu rho) phase_offset,
   getC P U Enu rho (dmMatVac P U DM order type Enu rho)
     (dmMatMat P U DM order type Enu rho) type phase_offset junk)

/-- Modelled from the spec: `multiply_phase_matrix` from the missing
`math.hpp` is the scale-by-phase-and-accumulate primitive, so that the
loop over the expansion index computes `A = Σ_k C_k·exp(i·arg_k)`
(doc comment of `getArg`/`getC` and the in-code recombination comment).
`phaseC a` is `exp(i·a) = cos a + i·sin a`. -/
def phaseC (P : Prims α) (a : α) : CNum α := ⟨P.cosF a, P.sinF a⟩

/-- The recombination `Σ_k C_k·exp(i·arg_k)` of a spectral expansion,
exactly the accumulation `calculate` performs with
`multiply_phase_matrix(arg[k], C[k], TransitionMatrix)` over a cleared
matrix. -/
def recombineExpansion (P : Prims α) (arg : Fin 3 → α)
    (C : Fin 3 → Fin 3 → Fin 3 → CNum α) : Fin 3 → Fin 3 → CNum α := fun i j =>
  ∑ k : Fin 3, phaseC P (arg k) * C k i j

/-! ### Matrix view of the spectral data

`Matrix (Fin 3) (Fin 3) (CNum α)` is definitionally a function matrix, so
the entrywise embedded definitions can be moved into Mathlib's matrix
algebra with `Matrix.of`. -/

/-- View an entrywise 3×3 complex array as a `Matrix`. -/
def toM (f : Fin 3 → Fin 3 → CNum α) : Matrix (Fin 3) (Fin 3) (CNum α) := Matrix.of f

/-- The scalar matrix `c·I` with a real scalar `c`. -/
def scalC (c : α) : Matrix (Fin 3) (Fin 3) (CNum α) :=
  CNum.ofReal c • (1 : Matrix (Fin 3) (Fin 3) (CNum α))

/-- The effective Hamiltonian-like matrix underlying `get_product`:
`twoEHmM[n][m][j] = Bmat[n][m] - mMat[j]·δ_{nm}`, i.e. the matter term
`-fac·U(0,m)·conj(U(0,n))` plus the vacuum diagonal `DM(n,0)`. -/
def Bmat (P : Prims α) (U : Fin 3 → Fin 3 → CNum α) (DM : Fin 3 → Fin 3 → α)
    (type : NeutrinoType) (E rho : α) : Matrix (Fin 3) (Fin 3) (CNum α) :=
  Matrix.of fun n m =>
    let fac := facOf P type E rho
    ⟨-fac * ((U 0 n).re * (U 0 m).re + (U 0 n).im * (U 0 m).im) +
        (if n = m then DM n 0 else 0),
     -fac * ((U 0 n).re * (U 0 m).im - (U 0 n).im * (U 0 m).re)⟩

/-! ### Orchestration-layer setup (`propagator.hpp`) -/

/-- `Propagator::setNeutrinoMasses`: builds the vacuum masses
`mVac = {0, dm12sq, dm12sq+dm23sq}`, breaks degeneracies with the fixed
`delta = 5.0e-9` (subtracted from `mVac[0]` when `dm12sq == 0`, added to
`mVac[2]` when `dm23sq == 0`), and stores the 3×3 mass-difference matrix
`DM`. -/
def setNeutrinoMasses (dm12sq dm23sq : α) : Fin 3 → Fin 3 → α :=
  let delta : α := 5e-9
  let mVac0 : α := if dm12sq = 0 then 0 - delta else 0
  let mVac1 : α := dm12sq
  let mVac2 : α := if dm23sq = 0 then dm12sq + dm23sq + delta else dm12sq + dm23sq
  fun i j =>
    if i = 0 ∧ j = 1 then mVac0 - mVac1
    else if i = 1 ∧ j = 0 then -(mVac0 - mVac1)
    else if i = 0 ∧ j = 2 then mVac0 - mVac2
    else if i = 2 ∧ j = 0 then -(mVac0 - mVac2)
    else if i = 1 ∧ j = 2 then mVac1 - mVac2
    else if i = 2 ∧ j = 1 then -(mVac1 - mVac2)
    else 0

/-- The stored density-model state of `Propagator` after `setDensity`:
the (canonicalized) `radii`, `rhos`, `yps` vectors and the `coslimit`
thresholds. -/
structure DensityState (α : Type) where
  radii : List α
  rhos : List α
  yps : List α
  coslimit : List α

/-- The `sign` local of `Propagator::setDensity`:
`radii_[1] - radii_[0] > 0 ? 1 : -1`. -/
def radiiSign (radii_ : List α) : α :=
  if 0 < radii_.getD 1 0 - radii_.getD 0 0 then 1 else -1

/-- The monotonicity scan of `Propagator::setDensity`: true when some
consecutive difference has `(radii_[i] - radii_[i-1]) * sign < 0`
(only performed when `radii_.size() >= 2`). -/
def densityOrderViolation (radii_ : List α) : Bool :=
  if 2 ≤ radii_.length then
    (List.range (radii_.length - 1)).any
      (fun i => decide ((radii_.getD (i+1) 0 - radii_.getD i 0) * radiiSign radii_ < 0))
  else false

/-- The `needFlip` reversal of `setDensity`: a vector is reversed exactly
when `radii_.size() >= 2` and the sign of the first radius difference is
`+1` (ascending input). -/
def canonFlip (radii_ l : List α) : List α :=
  if 2 ≤ radii_.length ∧ radiiSign radii_ = 1 then l.reverse else l

/-- The `coslimit` thresholds of `setDensity`, computed from the
canonicalized radii: `x = -sqrt(1 - r_i²/REarth²)`, forced to `0` for
`i = 0` (the outermost boundary). -/
def coslimitOf (P : Prims α) (radii : List α) : List α :=
  (List.range radii.length).map (fun i =>
    if i = 0 then 0
    else -1 * P.sqrtF (1 - radii.getD i 0 * radii.getD i 0 / (P.REarth * P.REarth)))

/-- `Propagator::setDensity` (constant-density overload): size checks,
monotonicity check, canonicalizing reversal of `radii`/`rhos`/`yps` when
the input is ascending, and the `coslimit` cosine thresholds computed
from the canonicalized radii.  Thrown `std::runtime_error`s become
`Except.error`. -/
def setDensity (P : Prims α) (radii_ rhos_ yps_ : List α) :
    Except String (DensityState α) :=
  if rhos_.length ≠ radii_.length then .error "setDensity : rhos.size() != radii.size()"
  else if rhos_.length ≠ yps_.length then .error "setDensity : rhos.size() != yps.size()"
  else if rhos_.length = 0 ∨ radii_.length = 0 ∨ yps_.length = 0 then
    .error "setDensity : vectors must not be empty"
  else if 2 ≤ radii_.length ∧ densityOrderViolation radii_ then .error "radii order messed up"
  else
    .ok ⟨canonFlip radii_ radii_, canonFlip radii_ rhos_, canonFlip radii_ yps_,
         coslimitOf P (canonFlip radii_ radii_)⟩

/-- Consecutive-pairs nondecreasing, in the `getD` indexing used by the
`setDensity` scan. -/
def Nondecr (l : List α) : Prop :=
  ∀ i, i + 1 < l.length → l.getD i 0 ≤ l.getD (i+1) 0

/-- Consecutive-pairs nonincreasing, in the `getD` indexing used by the
`setDensity` scan. -/
def Nonincr (l : List α) : Prop :=
  ∀ i, i + 1 < l.length → l.getD (i+1) 0 ≤ l.getD i 0

/-! ### The per-bin pipeline of `physics::calculate` -/

/-- `getDensityOfLayer`: density `0` for the atmosphere layer, the
stored density for layers up to the innermost crossed layer, and the
mirrored density beyond it.  Array reads use an integer index, as the C
index arithmetic does. -/
def getDensityOfLayer (rhos : ℤ → α) (layer max_layer : ℕ) : α :=
  if layer = 0 then 0
  else if layer ≤ max_layer then rhos ((layer : ℤ) - 1)
  else rhos (2 * (max_layer : ℤ) - (layer : ℤ) - 1)

/-- `getTraversedDistanceOfLayer`: chord geometry between consecutive
shell radii, with the whole path length for downward-going rays
(`cosine_zenith >= 0`), the above-earth remainder for the atmosphere
layer, and the symmetric index folding around `max_layer`. -/
def getTraversedDistanceOfLayer (P : Prims α) (radii : ℤ → α) (layer max_layer : ℕ)
    (PathLength TotalEarthLength cosine_zenith : α) : α :=
  if 0 ≤ cosine_zenith then PathLength
  else if layer = 0 then PathLength - TotalEarthLength
  else
    let i : ℤ := if max_layer ≤ layer then -(layer : ℤ) - 1 + 2 * (max_layer : ℤ)
      else (layer : ℤ) - 1
    let CrossThis := 2 * P.sqrtF (radii i * radii i -
      P.REarth * P.REarth * (1 - cosine_zenith * cosine_zenith))
    let CrossNext := 2 * P.sqrtF (radii (i+1) * radii (i+1) -
      P.REarth * P.REarth * (1 - cosine_zenith * cosine_zenith))
    if i < (max_layer : ℤ) - 1 then (1/2) * (CrossThis - CrossNext) * P.km2cm
    else CrossThis * P.km2cm

/-- The path length from a production point at height `h` (cm) above the
earth surface to the detector, for a given zenith cosine (the `sqrt`
expression of `calculate`). -/
def pathLengthOf (P : Prims α) (cosine h : α) : α :=
  P.sqrtF ((P.REarthcm + h) * (P.REarthcm + h) -
    P.REarthcm * P.REarthcm * (1 - cosine * cosine)) - P.REarthcm * cosine

/-- Modelled from the spec: `multiply_complex_matrix` of the missing
`math.hpp` is the standard complex 3×3 row-by-column product,
accumulated into a cleared output matrix. -/
def cmul (A B : Fin 3 → Fin 3 → CNum α) : Fin 3 → Fin 3 → CNum α := fun i j =>
  ∑ k : Fin 3, A i k * B k j

/-- The 3×3 identity, as set by the unit-matrix initialisation loops of
`calculate`. -/
def idM : Fin 3 → Fin 3 → CNum α := fun i j => if i = j then 1 else 0

/-- Modelled from the spec: `defined_sinc` of the missing `math.hpp` is
`sin x / x` with the removable singularity `sinc(0) = 1`. -/
def defined_sinc (P : Prims α) (x : α) : α := if x = 0 then 1 else P.sinF x / x

/-- The input bundle of `physics::calculate`.  `useAvg` is modelled from
the spec: the production-height-averaging flag of the `calculate`
overload invoked by `CpuPropagator::calculateProbabilities` (only the
flagless variant appears in `src/physics.hpp`); when it is off, the
cross-term accumulation loop is skipped (spec §4.4). -/
structure CalcIn (α : Type) where
  type : NeutrinoType
  cosinelist : ℕ → α
  n_cosines : ℕ
  energylist : ℕ → α
  n_energies : ℕ
  radii : ℤ → α
  rhos : ℤ → α
  maxlayers : ℕ → ℕ
  ProductionHeightinCentimeter : α
  productionHeight_prob_list : ℕ → α
  productionHeight_binedges_list : ℕ → α
  useAvg : Bool

variable (A : CalcIn α)

/-- `TotalEarthLength = -2·cosine·REarthcm` for a cosine bin. -/
def totalEarthLength (P : Prims α) (A : CalcIn α) (ic : ℕ) : α :=
  -2 * A.cosinelist ic * P.REarthcm

/-- The fixed-production-height path length of a cosine bin. -/
def binPathLength (P : Prims α) (A : CalcIn α) (ic : ℕ) : α :=
  pathLengthOf P (A.cosinelist ic) A.ProductionHeightinCentimeter

/-- The per-height-bin path lengths (`PathLengths[i]`), computed at the
midpoints of the production-height bin edges (converted km→cm). -/
def binPathLengths (P : Prims α) (A : CalcIn α) (ic : ℕ) (p : ℕ) : α :=
  pathLengthOf P (A.cosinelist ic)
    (P.km2cm * (A.productionHeight_binedges_list p + A.productionHeight_binedges_list (p+1)) / 2)

/-- Traversed distance (cm) of layer `l` for a (cosine, energy) bin. -/
def layerDist (P : Prims α) (A : CalcIn α) (ic : ℕ) (l : ℕ) : α :=
  getTraversedDistanceOfLayer P A.radii l (A.maxlayers ic) (binPathLength P A ic)
    (totalEarthLength P A ic) (A.cosinelist ic)

/-- Density of layer `l` for a cosine bin. -/
def layerRho (A : CalcIn α) (ic : ℕ) (l : ℕ) : α :=
  getDensityOfLayer A.rhos l (A.maxlayers ic)

/-- The spectral expansion `(arg, C)` of layer `l` of a bin, obtained
from `get_transition_matrix_expansion` at zero phase offset with the
layer's density and km-converted distance. -/
def layerExp (P : Prims α) (U : Fin 3 → Fin 3 → CNum α) (DM : Fin 3 → Fin 3 → α)
    (A : CalcIn α) (ic ie : ℕ) (l : ℕ) :
    (Fin 3 → α) × (Fin 3 → Fin 3 → Fin 3 → CNum α) :=
  get_transition_matrix_expansion P U DM (prepareOrder P DM) A.type (A.energylist ie)
    (layerRho A ic l) (layerDist P A ic l / P.km2cm) 0 (fun _ _ _ => 0)

/-- The per-layer transition matrix, recombined from the expansion with
`multiply_phase_matrix` over the cleared accumulator. -/
def layerTM (P : Prims α) (U : Fin 3 → Fin 3 → CNum α) (DM : Fin 3 → Fin 3 → α)
    (A : CalcIn α) (ic ie : ℕ) (l : ℕ) : Fin 3 → Fin 3 → CNum α :=
  recombineExpansion P (layerExp P U DM A ic ie l).1 (layerExp P U DM A ic ie l).2

/-- The debug reference transition matrix (`TransitionMatrix_getA`),
computed by `get_transition_matrix` for the same layer. -/
def layerTMdirect (P : Prims α) (U : Fin 3 → Fin 3 → CNum α) (DM : Fin 3 → Fin 3 → α)
    (A : CalcIn α) (ic ie : ℕ) (l : ℕ) : Fin 3 → Fin 3 → CNum α :=
  get_transition_matrix P U DM (prepareOrder P DM) A.type (A.energylist ie)
    (layerRho A ic l) (layerDist P A ic l / P.km2cm) 0 (fun _ _ _ => 0)

/-- One step of the layer-composition loop: the atmosphere layer seeds
the running total, middle layers multiply the running total on the left
and the core-to-mantle accumulator on the right, the innermost layer
multiplies the running total only. -/
def layerStep (TM : Fin 3 → Fin 3 → CNum α) (l MaxLayer : ℕ)
    (acc : (Fin 3 → Fin 3 → CNum α) × (Fin 3 → Fin 3 → CNum α)) :
    (Fin 3 → Fin 3 → CNum α) × (Fin 3 → Fin 3 → CNum α) :=
  if l = 0 then (TM, acc.2)
  else if l < MaxLayer then (cmul TM acc.1, cmul acc.2 TM)
  else (cmul TM acc.1, acc.2)

/-- The layer loop of `calculate`: fold `layerStep` over layers
`0..MaxLayer`, starting from `(finalTransitionMatrix, I)`. -/
def layersFold (P : Prims α) (U : Fin 3 → Fin 3 → CNum α) (DM : Fin 3 → Fin 3 → α)
    (A : CalcIn α) (ic ie : ℕ) :
    (Fin 3 → Fin 3 → CNum α) × (Fin 3 → Fin 3 → CNum α) :=
  (List.range (A.maxlayers ic + 1)).foldl
    (fun acc l => layerStep (layerTM P U DM A ic ie l) l (A.maxlayers ic) acc)
    (idM, idM)

/-- The final transition matrix of a bin:
`TransitionMatrixCoreToMantle * finalTransitionMatrix` after the loop. -/
def binFinalTM (P : Prims α) (U : Fin 3 → Fin 3 → CNum α) (DM : Fin 3 → Fin 3 → α)
    (A : CalcIn α) (ic ie : ℕ) : Fin 3 → Fin 3 → CNum α :=
  cmul (layersFold P U DM A ic ie).2 (layersFold P U DM A ic ie).1

/-- `darg0_ddistance`: derivative of the atmosphere-layer phases with
respect to the traversed distance, zero when that distance is zero. -/
def darg0_ddistance (P : Prims α) (U : Fin 3 → Fin 3 → CNum α) (DM : Fin 3 → Fin 3 → α)
    (A : CalcIn α) (ic ie : ℕ) : Fin 3 → α :=
  if layerDist P A ic 0 = 0 then fun _ => 0
  else fun k => (layerExp P U DM A ic ie 0).1 k / layerDist P A ic 0

/-- The flat index into `productionHeight_prob_list`:
`type·3·nE·nC·20 + flavor·nE·nC·20 + ie·nC·20 + ic·20 + heightBin`
(`NPRODHEIGHTBINS = 20`). -/
def prodHeightProbIndex (A : CalcIn α) (ic ie : ℕ) (f : Fin 3) (p : ℕ) : ℕ :=
  A.type.idx * 3 * A.n_energies * A.n_cosines * 20 +
    (f : ℕ) * A.n_energies * A.n_cosines * 20 + ie * A.n_cosines * 20 + ic * 20 + p

/-- One height-bin contribution to the cross-term weighting tensor for
the eigenstate pair `(big, small)`:
`prob · sinc(½·Δdarg·hw)·exp(i·Δdarg·hm)`. -/
def shiftContribution (P : Prims α) (U : Fin 3 → Fin 3 → CNum α) (DM : Fin 3 → Fin 3 → α)
    (A : CalcIn α) (ic ie : ℕ) (big small : Fin 3) (f : Fin 3) (p : ℕ) : CNum α :=
  let darg := darg0_ddistance P U DM A ic ie big - darg0_ddistance P U DM A ic ie small
  let h0 := binPathLengths P A ic p
  let h1 := binPathLengths P A ic (p+1)
  let hm := (h1 + h0) / 2
  let hw := h1 - h0
  let SincArg := (1/2) * darg * hw
  let w := A.productionHeight_prob_list (prodHeightProbIndex A ic ie f p)
  ⟨w * (defined_sinc P SincArg * P.cosF (darg * hm)),
   w * (defined_sinc P SincArg * P.sinF (darg * hm))⟩

/-- The cross-term weighting tensor `totalLenShiftFactor`: initialized
to the identity in the two eigenstate indices; when height averaging is
enabled the off-diagonal entries accumulate the sinc-weighted coherence
factors over the `20 - 1` height bins (both `[i][j]` and `[j][i]` get
the value computed for the ordered pair), otherwise they stay zero. -/
def totalLenShiftFactor (P : Prims α) (U : Fin 3 → Fin 3 → CNum α) (DM : Fin 3 → Fin 3 → α)
    (A : CalcIn α) (ic ie : ℕ) (e1 e2 : Fin 3) (f : Fin 3) : CNum α :=
  if e1 = e2 then ⟨1, 0⟩
  else if A.useAvg then
    ∑ p ∈ Finset.range (20 - 1),
      shiftContribution P U DM A ic ie (max e1 e2) (min e1 e2) f p
  else ⟨0, 0⟩

/-- `Product[iExp] = finalTransitionMatrix * ExpansionMatrix[atm][iExp]`. -/
def binProduct (P : Prims α) (U : Fin 3 → Fin 3 → CNum α) (DM : Fin 3 → Fin 3 → α)
    (A : CalcIn α) (ic ie : ℕ) (k : Fin 3) : Fin 3 → Fin 3 → CNum α :=
  cmul (binFinalTM P U DM A ic ie) (fun i j => (layerExp P U DM A ic ie 0).2 k i j)

/-- One cross term of the probability accumulation, for expansion pair
`(iE, jE)` with `jE < iE` and flavors `(a, b)` (after, before). -/
def binCross (P : Prims α) (U : Fin 3 → Fin 3 → CNum α) (DM : Fin 3 → Fin 3 → α)
    (A : CalcIn α) (ic ie : ℕ) (iE jE : Fin 3) (a b : Fin 3) : α :=
  2 * (binProduct P U DM A ic ie jE a b).re * (binProduct P U DM A ic ie iE a b).re *
      (totalLenShiftFactor P U DM A ic ie iE jE b).re +
    2 * (binProduct P U DM A ic ie jE a b).im * (binProduct P U DM A ic ie iE a b).im *
      (totalLenShiftFactor P U DM A ic ie iE jE b).re +
    2 * (binProduct P U DM A ic ie jE a b).im * (binProduct P U DM A ic ie iE a b).re *
      (totalLenShiftFactor P U DM A ic ie iE jE b).im -
    2 * (binProduct P U DM A ic ie jE a b).re * (binProduct P U DM A ic ie iE a b).im *
      (totalLenShiftFactor P U DM A ic ie iE jE b).im

/-- The 3×3 probability matrix `Prob[after][before]` of one bin: squared
magnitudes of the three expansion products plus the shift-weighted cross
terms over expansion pairs `jExp < iExp`. -/
def binProb (P : Prims α) (U : Fin 3 → Fin 3 → CNum α) (DM : Fin 3 → Fin 3 → α)
    (A : CalcIn α) (ic ie : ℕ) : Fin 3 → Fin 3 → α := fun a b =>
  (∑ k : Fin 3, CNum.normSq (binProduct P U DM A ic ie k a b)) +
    ∑ iE : Fin 3, ∑ jE : Fin 3,
      if (jE : ℕ) < (iE : ℕ) then binCross P U DM A ic ie iE jE a b else 0

/-- Single write into the flat result buffer. -/
def upd (buf : ℕ → α) (idx : ℕ) (v : α) : ℕ → α := fun n => if n = idx then v else buf n

/-- The nine writes of one bin:
`result[base + before·3 + after] = Prob[after][before]`. -/
def writeBinProbs (Pr : Fin 3 → Fin 3 → α) (base : ℕ) (buf : ℕ → α) : ℕ → α :=
  (List.finRange 3).foldl
    (fun b i => (List.finRange 3).foldl
      (fun b2 j => upd b2 (base + ((i : ℕ) * 3 + (j : ℕ))) (Pr j i)) b)
    buf

/-- The full result buffer produced by the bin-parallel (CPU) loops of
`calculate`: for each cosine bin and each energy bin, the nine
probabilities are written at base offset `ic·nE·9 + ie·9`. -/
def calcResult (P : Prims α) (U : Fin 3 → Fin 3 → CNum α) (DM : Fin 3 → Fin 3 → α)
    (A : CalcIn α) (buf0 : ℕ → α) : ℕ → α :=
  (List.range A.n_cosines).foldl
    (fun buf ic =>
      (List.range A.n_energies).foldl
        (fun buf2 ie =>
          writeBinProbs (binProb P U DM A ic ie) (ic * A.n_energies * 9 + ie * 9) buf2)
        buf)
    buf0

/-- The in-loop debug re-check of `calculate`: true when some bin and
layer has an entry of the recombined transition matrix differing from
the `get_transition_matrix` reference by more than `1e-9` in real or
imaginary part (the code prints and calls `std::exit(-1)`). -/
def debugMismatch (P : Prims α) (U : Fin 3 → Fin 3 → CNum α) (DM : Fin 3 → Fin 3 → α)
    (A : CalcIn α) : Bool :=
  (List.range A.n_cosines).any fun ic =>
    (List.range A.n_energies).any fun ie =>
      (List.range (A.maxlayers ic + 1)).any fun l =>
        decide (∃ i j : Fin 3,
          1e-9 < |(layerTM P U DM A ic ie l i j).re - (layerTMdirect P U DM A ic ie l i j).re| ∨
          1e-9 < |(layerTM P U DM A ic ie l i j).im - (layerTMdirect P U DM A ic ie l i j).im|)

/-- `physics::calculate` (host path): `prepare_getMfast` runs first (its
`order` output is used by every per-bin call through `prepareOrder`),
each cosine bin whose `maxlayers` exceeds `nMaxLayers = 8` terminates
the whole run fatally (`std::exit(-1)` becomes `Except.error`), the
debug recombination check likewise, and otherwise every bin's nine
probabilities are written into the result buffer. -/
def calculate (P : Prims α) (U : Fin 3 → Fin 3 → CNum α) (DM : Fin 3 → Fin 3 → α)
    (A : CalcIn α) (buf0 : ℕ → α) : Except String (ℕ → α) :=
  if (List.range A.n_cosines).any (fun ic => decide (8 < A.maxlayers ic)) then
    .error "Error: MaxLayer given by nMaxLayers. Please increase nMaxLayers"
  else if debugMismatch P U DM A then
    .error "TransitionMatrix debug mismatch"
  else .ok (calcResult P U DM A buf0)

/-! ### The orchestration-layer readers (`cpupropagator.hpp`) -/

/-- The `ProbType` enum value selecting `P(before -> after)`:
`flavor_before·3 + flavor_after`. -/
def probTypeIdx (before after : Fin 3) : Fin 9 :=
  ⟨(before : ℕ) * 3 + (after : ℕ), by
    have hb := before.isLt
    have ha := after.isLt
    omega⟩

/-- `CpuPropagator::getProbability`: bounds check, then read
`resultList[ic·nE·9 + ie·9 + t]`. -/
def getProbability (resultList : ℕ → α) (n_cosines n_energies : ℕ)
    (index_cosine index_energy : ℕ) (t : Fin 9) : Except String α :=
  if n_cosines ≤ index_cosine ∨ n_energies ≤ index_energy then
    .error "CpuPropagator::getProbability. Invalid indices"
  else .ok (resultList (index_cosine * n_energies * 9 + index_energy * 9 + (t : ℕ)))

/-- `CpuPropagator::getProbabilityArr`: fills the output array with one
value per `iter`, iterating energies in the outer loop and cosines in
the inner loop; the produced list is exactly the sequence of reads in
iteration order. -/
def getProbabilityArr (resultList : ℕ → α) (n_cosines n_energies : ℕ) (t : Fin 9) :
    List α :=
  ((List.range n_energies).map (fun index_energy =>
    (List.range n_cosines).map (fun index_cosine =>
      resultList (index_cosine * n_energies * 9 + index_energy * 9 + (t : ℕ))))).flatten

/-- The shifted-factor product `N_k = (B - m_{k+1}·I)(B - m_{k+2}·I)`
appearing as the numerator of `get_product` in matrix form
(`get_product_toM`). -/
def Nmat (B : Matrix (Fin 3) (Fin 3) (CNum α)) (m : Fin 3 → α) (k : Fin 3) :
    Matrix (Fin 3) (Fin 3) (CNum α) :=
  (B - scalC (m (k+1))) * (B - scalC (m (k+2)))

/-- The spectral projector `P_k = N_k / ((m_k-m_{k+1})(m_k-m_{k+2}))`
computed by `get_product` (matrix form of `get_product_toM`). -/
def Pproj (B : Matrix (Fin 3) (Fin 3) (CNum α)) (m : Fin 3 → α) (k : Fin 3) :
    Matrix (Fin 3) (Fin 3) (CNum α) :=
  CNum.ofReal ((m k - m (k+1)) * (m k - m (k+2)))⁻¹ • Nmat B m k

/-! ### General lemmas -/

/-- The clamp `if (fabs(x)>1.0) x = x/fabs(x)` always lands in `[-1,1]`. -/
lemma abs_clamp_le_one (x : α) : |(if 1 < |x| then x / |x| else x)| ≤ 1 := by
  by_cases h : 1 < |x|
  · have hx : x ≠ 0 := by
      intro h0
      simp [h0] at h
      exact absurd h (by norm_num)
    simp only [h, if_pos]
    rw [abs_div, abs_abs, div_self (abs_ne_zero.mpr hx)]
  · simp only [h, if_neg, not_false_iff]
    exact le_of_not_lt h

/-- `getA` at zero phase offset is exactly the recombination
`Σ_k C_k·exp(i·arg_k)` of the `getArg`/`getC` expansion, for arbitrary
eigen-solver outputs `dmV`, `dmM` and arbitrary junk contents of the
uninitialized stack arrays. -/
lemma getA_eq_recombine (P : Prims α) (U : Fin 3 → Fin 3 → CNum α) (L E rho : α)
    (dmV dmM : Fin 3 → Fin 3 → α) (type : NeutrinoType)
    (junkA junkC : Fin 3 → Fin 3 → Fin 3 → CNum α) :
    getA P U L E rho dmV dmM type 0 junkA =
      recombineExpansion P (getArg L E dmV 0) (getC P U E rho dmV dmM type 0 junkC) := by
  funext n m
  have hL : get_product P U ((0:α)/0) E rho dmV dmM type =
      get_product P U L E rho dmV dmM type := rfl
  simp only [getA, recombineExpansion, getC, getArg, phaseC, eq_self_iff_true, if_true, hL]
  generalize get_product P U L E rho dmV dmM type = p
  rw [CNum.ext_iff]
  constructor
  · simp only [Fin.sum_univ_three, CNum.add_re, CNum.add_im, CNum.mul_re, CNum.mul_im,
      axfac0, axfac1, axfac2, axfac3]
    norm_num
    ring
  · simp only [Fin.sum_univ_three, CNum.add_re, CNum.add_im, CNum.mul_re, CNum.mul_im,
      axfac0, axfac1, axfac2, axfac3]
    norm_num
    ring

/-- With the genuine real `sqrt`/`acos`/`cos` and vacuum masses
`{-δ, 0, -δ}` relative to `mVac[1]` (entries `DM(0,1) = -δ`,
`DM(0,2) = 0`), the cubic of `getMfast` at zero density has the double
root that the vacuum masses dictate: the reordered matter masses satisfy
`mMat[0] = mMat[2]`, so the `get_product` divisor
`dmMatMat[0][1]·dmMatMat[0][2]` is exactly zero. -/
lemma dmMatMat_degenerate_zero (P : Prims ℝ) (hsq : P.sqrtF = Real.sqrt)
    (hac : P.acosF = Real.arccos) (hcos : P.cosF = Real.cos) (hpi : P.piF = Real.pi)
    (U : Fin 3 → Fin 3 → CNum ℝ) (E : ℝ) (δ : ℝ) (hδ : 0 < δ)
    (DM : Fin 3 → Fin 3 → ℝ) (h00 : DM 0 0 = 0) (h01 : DM 0 1 = -δ)
    (h02 : DM 0 2 = 0) (h20 : DM 2 0 = 0) :
    dmMatMat P U DM (prepareOrder P DM) NeutrinoType.Neutrino E 0 0 2 = 0 := by
  have hfac : facOf P NeutrinoType.Neutrino E 0 = 0 := by simp [facOf]
  have hA : mfAlpha P DM NeutrinoType.Neutrino E 0 = -δ := by
    simp [mfAlpha, hfac, h01, h02]
  have hB : mfBeta P U DM NeutrinoType.Neutrino E 0 = 0 := by
    simp [mfBeta, hfac, h01, h02]
  have hT : mfTmp P U DM NeutrinoType.Neutrino E 0 = δ ^ 2 := by
    simp only [mfTmp]
    rw [hA, hB, if_neg (by nlinarith [sq_nonneg δ])]
    ring
  have hAt : mfArgtmp P U DM NeutrinoType.Neutrino E 0 = -1 := by
    have hG : mfGamma P U DM NeutrinoType.Neutrino E 0 = 0 := by
      simp [mfGamma, hfac]
    simp only [mfArgtmp]
    rw [hA, hB, hG, hT, hsq, show ((δ^2)*(δ^2)*(δ^2) : ℝ) = (δ^3)^2 by ring,
      Real.sqrt_sq (by positivity)]
    rw [div_eq_iff (by positivity)]
    ring
  have hArg : mfArg P U DM NeutrinoType.Neutrino E 0 = -1 := by
    simp only [mfArg]
    rw [hAt]
    norm_num
  have hθ0 : mfTheta P U DM NeutrinoType.Neutrino E 0 0 = Real.pi / 3 := by
    rw [show mfTheta P U DM NeutrinoType.Neutrino E 0 0 =
        P.acosF (mfArg P U DM NeutrinoType.Neutrino E 0) / 3 from rfl,
      hArg, hac, Real.arccos_neg_one]
  have hsqT : P.sqrtF (mfTmp P U DM NeutrinoType.Neutrino E 0) = δ := by
    rw [hT, hsq, Real.sqrt_sq hδ.le]
  have hM0 : mMatU P U DM NeutrinoType.Neutrino E 0 0 = 0 := by
    simp only [mMatU]
    rw [hsqT, hθ0, hcos, Real.cos_pi_div_three, h00, hA]
    ring
  -- the vacuum cubic of `prepare_getMfast` is numerically identical here
  have hpvA : pvAlpha DM = -δ := by simp [pvAlpha, h01, h02]
  have hpvB : pvBeta DM = 0 := by simp [pvBeta, h01, h02]
  have hpvT : pvTmp DM = δ ^ 2 := by rw [pvTmp, hpvA, hpvB]; ring
  have hpvAt : pvArgtmp P DM = -1 := by
    simp only [pvArgtmp]
    rw [hpvA, hpvB, hpvT, hsq, show ((δ^2)*(δ^2)*(δ^2) : ℝ) = (δ^3)^2 by ring,
      Real.sqrt_sq (by positivity)]
    rw [div_eq_iff (by positivity)]
    ring
  have hpvArg : pvArg P DM = -1 := by
    simp only [pvArg]
    rw [hpvAt]
    norm_num
  have hpvθ0 : pvTheta P DM 0 = Real.pi / 3 := by
    rw [show pvTheta P DM 0 = P.acosF (pvArg P DM) / 3 from rfl,
      hpvArg, hac, Real.arccos_neg_one]
  have hpvθ1 : pvTheta P DM 1 = Real.pi / 3 - 2 * Real.pi / 3 := by
    rw [show pvTheta P DM 1 = P.acosF (pvArg P DM) / 3 - 2 * P.piF / 3 from rfl,
      hpvArg, hac, hpi, Real.arccos_neg_one]
  have hpvθ2 : pvTheta P DM 2 = Real.pi / 3 + 2 * Real.pi / 3 := by
    rw [show pvTheta P DM 2 = P.acosF (pvArg P DM) / 3 + 2 * P.piF / 3 from rfl,
      hpvArg, hac, hpi, Real.arccos_neg_one]
  have hsqpvT : P.sqrtF (pvTmp DM) = δ := by rw [hpvT, hsq, Real.sqrt_sq hδ.le]
  have hMV0 : mMatV P DM 0 = 0 := by
    simp only [mMatV]
    rw [hsqpvT, hpvθ0, hcos, Real.cos_pi_div_three, h00, hpvA]
    ring
  have hMV1 : mMatV P DM 1 = 0 := by
    simp only [mMatV]
    rw [hsqpvT, hpvθ1, hcos, show (Real.pi/3 - 2*Real.pi/3 : ℝ) = -(Real.pi/3) by ring,
      Real.cos_neg, Real.cos_pi_div_three, h00, hpvA]
    ring
  have hMV2 : mMatV P DM 2 = δ := by
    simp only [mMatV]
    rw [hsqpvT, hpvθ2, hcos, show (Real.pi/3 + 2*Real.pi/3 : ℝ) = Real.pi by ring,
      Real.cos_pi, h00, hpvA]
    ring
  have hnd : ¬ (δ < 0) := not_lt.mpr hδ.le
  have horder0 : prepareOrder P DM 0 = 0 := by
    simp only [prepareOrder, hMV0, hMV1, hMV2, h00, sub_self, abs_zero,
      lt_self_iff_false, if_false, zero_sub, abs_neg, abs_of_pos hδ, hnd]
  have horder2 : prepareOrder P DM 2 = 0 := by
    simp only [prepareOrder, hMV0, hMV1, hMV2, h20, sub_self, abs_zero,
      lt_self_iff_false, if_false, zero_sub, abs_neg, abs_of_pos hδ, hnd]
  simp only [dmMatMat, mMat]
  rw [horder0, horder2]
  ring

/-- With the genuine real `sqrt`/`acos`/`cos` and vacuum masses
`{-δ, 0, δ}` (entries `DM(0,1) = -δ`, `DM(0,2) = -2δ`, as produced by
`setNeutrinoMasses 0 0`), the cubic of `getMfast` at zero density has the
three distinct roots `{0, δ, 2δ}` relative to `mVac[0]`, so all three
`get_product` divisor products are nonzero. -/
lemma dmMatMat_eps_distinct (P : Prims ℝ) (hsq : P.sqrtF = Real.sqrt)
    (hac : P.acosF = Real.arccos) (hcos : P.cosF = Real.cos) (hpi : P.piF = Real.pi)
    (U : Fin 3 → Fin 3 → CNum ℝ) (E : ℝ) (δ : ℝ) (hδ : 0 < δ)
    (DM : Fin 3 → Fin 3 → ℝ) (h00 : DM 0 0 = 0) (h01 : DM 0 1 = -δ)
    (h02 : DM 0 2 = -(2*δ)) (h10 : DM 1 0 = δ) (h20 : DM 2 0 = 2*δ) :
    ∀ k : Fin 3,
      dmMatMat P U DM (prepareOrder P DM) NeutrinoType.Neutrino E 0 k (k+1) *
        dmMatMat P U DM (prepareOrder P DM) NeutrinoType.Neutrino E 0 k (k+2) ≠ 0 := by
  have h3nn : (0:ℝ) ≤ 3 := by norm_num
  have h33 : Real.sqrt 3 * Real.sqrt 3 = 3 := Real.mul_self_sqrt h3nn
  have hfac : facOf P NeutrinoType.Neutrino E 0 = 0 := by simp [facOf]
  have hA : mfAlpha P DM NeutrinoType.Neutrino E 0 = -(3*δ) := by
    rw [mfAlpha, hfac, h01, h02]; ring
  have hB : mfBeta P U DM NeutrinoType.Neutrino E 0 = 2*δ^2 := by
    rw [mfBeta, hfac, h01, h02]; ring
  have hG : mfGamma P U DM NeutrinoType.Neutrino E 0 = 0 := by
    rw [mfGamma, hfac]; ring
  have hT : mfTmp P U DM NeutrinoType.Neutrino E 0 = 3*δ^2 := by
    simp only [mfTmp]
    rw [hA, hB, if_neg ?side]
    case side =>
      rw [show -(3*δ) * -(3*δ) - 3 * (2*δ^2) = 3*δ^2 by ring]
      exact not_lt.mpr (by positivity)
    ring
  have hAt : mfArgtmp P U DM NeutrinoType.Neutrino E 0 = 0 := by
    simp only [mfArgtmp]
    rw [hA, hB, hG, div_eq_zero_iff]
    left
    ring
  have hArg : mfArg P U DM NeutrinoType.Neutrino E 0 = 0 := by
    simp only [mfArg]
    rw [hAt]
    norm_num
  have hθ0 : mfTheta P U DM NeutrinoType.Neutrino E 0 0 = Real.pi / 2 / 3 := by
    rw [show mfTheta P U DM NeutrinoType.Neutrino E 0 0 =
        P.acosF (mfArg P U DM NeutrinoType.Neutrino E 0) / 3 from rfl,
      hArg, hac, Real.arccos_zero]
  have hθ1 : mfTheta P U DM NeutrinoType.Neutrino E 0 1 = Real.pi / 2 / 3 - 2*Real.pi/3 := by
    rw [show mfTheta P U DM NeutrinoType.Neutrino E 0 1 =
        P.acosF (mfArg P U DM NeutrinoType.Neutrino E 0) / 3 - 2 * P.piF / 3 from rfl,
      hArg, hac, hpi, Real.arccos_zero]
  have hθ2 : mfTheta P U DM NeutrinoType.Neutrino E 0 2 = Real.pi / 2 / 3 + 2*Real.pi/3 := by
    rw [show mfTheta P U DM NeutrinoType.Neutrino E 0 2 =
        P.acosF (mfArg P U DM NeutrinoType.Neutrino E 0) / 3 + 2 * P.piF / 3 from rfl,
      hArg, hac, hpi, Real.arccos_zero]
  have hsqT : P.sqrtF (mfTmp P U DM NeutrinoType.Neutrino E 0) = Real.sqrt 3 * δ := by
    rw [hT, hsq, show (3*δ^2 : ℝ) = 3*δ^2 from rfl, Real.sqrt_mul h3nn, Real.sqrt_sq hδ.le]
  have hM0 : mMatU P U DM NeutrinoType.Neutrino E 0 0 = 0 := by
    simp only [mMatU]
    rw [hsqT, hθ0, hcos, show (Real.pi/2/3 : ℝ) = Real.pi/6 by ring,
      Real.cos_pi_div_six, h00, hA]
    linear_combination (-δ/3) * h33
  have hM1 : mMatU P U DM NeutrinoType.Neutrino E 0 1 = δ := by
    simp only [mMatU]
    rw [hsqT, hθ1, hcos, show (Real.pi/2/3 - 2*Real.pi/3 : ℝ) = -(Real.pi/2) by ring,
      Real.cos_neg, Real.cos_pi_div_two, h00, hA]
    ring
  have hM2 : mMatU P U DM NeutrinoType.Neutrino E 0 2 = 2*δ := by
    simp only [mMatU]
    rw [hsqT, hθ2, hcos, show (Real.pi/2/3 + 2*Real.pi/3 : ℝ) = Real.pi - Real.pi/6 by ring,
      Real.cos_pi_sub, Real.cos_pi_div_six, h00, hA]
    linear_combination (δ/3) * h33
  -- the vacuum cubic of `prepare_getMfast` is numerically identical here
  have hpvA : pvAlpha DM = -(3*δ) := by rw [pvAlpha, h01, h02]; ring
  have hpvB : pvBeta DM = 2*δ^2 := by rw [pvBeta, h01, h02]; ring
  have hpvT : pvTmp DM = 3*δ^2 := by rw [pvTmp, hpvA, hpvB]; ring
  have hpvAt : pvArgtmp P DM = 0 := by
    simp only [pvArgtmp]
    rw [hpvA, hpvB, div_eq_zero_iff]
    left
    ring
  have hpvArg : pvArg P DM = 0 := by
    simp only [pvArg]
    rw [hpvAt]
    norm_num
  have hpvθ0 : pvTheta P DM 0 = Real.pi / 2 / 3 := by
    rw [show pvTheta P DM 0 = P.acosF (pvArg P DM) / 3 from rfl,
      hpvArg, hac, Real.arccos_zero]
  have hpvθ1 : pvTheta P DM 1 = Real.pi / 2 / 3 - 2*Real.pi/3 := by
    rw [show pvTheta P DM 1 = P.acosF (pvArg P DM) / 3 - 2 * P.piF / 3 from rfl,
      hpvArg, hac, hpi, Real.arccos_zero]
  have hpvθ2 : pvTheta P DM 2 = Real.pi / 2 / 3 + 2*Real.pi/3 := by
    rw [show pvTheta P DM 2 = P.acosF (pvArg P DM) / 3 + 2 * P.piF / 3 from rfl,
      hpvArg, hac, hpi, Real.arccos_zero]
  have hsqpvT : P.sqrtF (pvTmp DM) = Real.sqrt 3 * δ := by
    rw [hpvT, hsq, Real.sqrt_mul h3nn, Real.sqrt_sq hδ.le]
  have hMV0 : mMatV P DM 0 = 0 := by
    simp only [mMatV]
    rw [hsqpvT, hpvθ0, hcos, show (Real.pi/2/3 : ℝ) = Real.pi/6 by ring,
      Real.cos_pi_div_six, h00, hpvA]
    linear_combination (-δ/3) * h33
  have hMV1 : mMatV P DM 1 = δ := by
    simp only [mMatV]
    rw [hsqpvT, hpvθ1, hcos, show (Real.pi/2/3 - 2*Real.pi/3 : ℝ) = -(Real.pi/2) by ring,
      Real.cos_neg, Real.cos_pi_div_two, h00, hpvA]
    ring
  have hMV2 : mMatV P DM 2 = 2*δ := by
    simp only [mMatV]
    rw [hsqpvT, hpvθ2, hcos, show (Real.pi/2/3 + 2*Real.pi/3 : ℝ) = Real.pi - Real.pi/6 by ring,
      Real.cos_pi_sub, Real.cos_pi_div_six, h00, hpvA]
    linear_combination (δ/3) * h33
  have hnd : ¬ (δ < 0) := not_lt.mpr hδ.le
  have hnd2 : ¬ (2*δ < 0) := by linarith
  have e1 : |(0:ℝ) - δ| = δ := by rw [zero_sub, abs_neg, abs_of_pos hδ]
  have e2 : |(0:ℝ) - 2*δ| = 2*δ := by rw [zero_sub, abs_neg, abs_of_pos (by linarith)]
  have horder0 : prepareOrder P DM 0 = 0 := by
    simp only [prepareOrder, h00, hMV0, hMV1, hMV2, sub_self, abs_zero, e1, e2,
      hnd, hnd2, if_false, lt_self_iff_false]
  have e3 : |δ - (0:ℝ)| = δ := by rw [sub_zero, abs_of_pos hδ]
  have e4 : |δ - 2*δ| = δ := by rw [show δ - 2*δ = -δ by ring, abs_neg, abs_of_pos hδ]
  have horder1 : prepareOrder P DM 1 = 1 := by
    simp only [prepareOrder, h10, hMV0, hMV1, hMV2, sub_self, abs_zero, e3, e4,
      hδ, hnd, if_true, if_false, lt_self_iff_false]
  have e5 : |2*δ - (0:ℝ)| = 2*δ := by rw [sub_zero, abs_of_pos (by linarith)]
  have e6 : |2*δ - δ| = δ := by rw [show 2*δ - δ = δ by ring, abs_of_pos hδ]
  have hlt : δ < 2*δ := by linarith
  have horder2 : prepareOrder P DM 2 = 2 := by
    simp only [prepareOrder, h20, hMV0, hMV1, hMV2, sub_self, abs_zero, e5, e6,
      hδ, hlt, if_true]
  have hdd : 0 < δ * δ := mul_pos hδ hδ
  have hd01 : dmMatMat P U DM (prepareOrder P DM) NeutrinoType.Neutrino E 0 0 1 = -δ := by
    simp only [dmMatMat, mMat, horder0, horder1, hM0, hM1]; ring
  have hd02 : dmMatMat P U DM (prepareOrder P DM) NeutrinoType.Neutrino E 0 0 2 = -(2*δ) := by
    simp only [dmMatMat, mMat, horder0, horder2, hM0, hM2]; ring
  have hd12 : dmMatMat P U DM (prepareOrder P DM) NeutrinoType.Neutrino E 0 1 2 = -δ := by
    simp only [dmMatMat, mMat, horder1, horder2, hM1, hM2]; ring
  have hd10 : dmMatMat P U DM (prepareOrder P DM) NeutrinoType.Neutrino E 0 1 0 = δ := by
    simp only [dmMatMat, mMat, horder1, horder0, hM1, hM0]; ring
  have hd20 : dmMatMat P U DM (prepareOrder P DM) NeutrinoType.Neutrino E 0 2 0 = 2*δ := by
    simp only [dmMatMat, mMat, horder2, horder0, hM2, hM0]; ring
  have hd21 : dmMatMat P U DM (prepareOrder P DM) NeutrinoType.Neutrino E 0 2 1 = δ := by
    simp only [dmMatMat, mMat, horder2, horder1, hM2, hM1]; ring
  intro k
  fin_cases k
  · show dmMatMat P U DM (prepareOrder P DM) NeutrinoType.Neutrino E 0 0 1 *
        dmMatMat P U DM (prepareOrder P DM) NeutrinoType.Neutrino E 0 0 2 ≠ 0
    rw [hd01, hd02, show -δ * -(2*δ) = 2*(δ*δ) by ring]
    exact ne_of_gt (by linarith)
  · show dmMatMat P U DM (prepareOrder P DM) NeutrinoType.Neutrino E 0 1 2 *
        dmMatMat P U DM (prepareOrder P DM) NeutrinoType.Neutrino E 0 1 0 ≠ 0
    rw [hd12, hd10, show -δ * δ = -(δ*δ) by ring]
    exact neg_ne_zero.mpr (ne_of_gt hdd)
  · show dmMatMat P U DM (prepareOrder P DM) NeutrinoType.Neutrino E 0 2 0 *
        dmMatMat P U DM (prepareOrder P DM) NeutrinoType.Neutrino E 0 2 1 ≠ 0
    rw [hd20, hd21, show 2*δ * δ = 2*(δ*δ) by ring]
    exact ne_of_gt (by linarith)

/-- The `setDensity` monotonicity scan fires exactly when some consecutive
difference times the sign is negative. -/
lemma densityOrderViolation_iff (radii_ : List α) :
    densityOrderViolation radii_ = true ↔
      ∃ i, i + 1 < radii_.length ∧
        (radii_.getD (i+1) 0 - radii_.getD i 0) * radiiSign radii_ < 0 := by
  unfold densityOrderViolation
  by_cases h : 2 ≤ radii_.length
  · simp only [h, if_true, List.any_eq_true, List.mem_range, decide_eq_true_eq]
    constructor
    · rintro ⟨i, hi, hlt⟩
      exact ⟨i, by omega, hlt⟩
    · rintro ⟨i, hi, hlt⟩
      exact ⟨i, by omega, hlt⟩
  · simp only [h, if_false]
    constructor
    · intro hfalse
      exact absurd hfalse (by simp)
    · rintro ⟨i, hi, _⟩
      omega

/-- A consecutive-pairs nondecreasing list is nondecreasing between any
two in-range indices. -/
lemma Nondecr.getD_mono {l : List α} (h : Nondecr l) :
    ∀ i j, i ≤ j → j < l.length → l.getD i 0 ≤ l.getD j 0 := by
  intro i j hij hj
  induction j with
  | zero =>
    have : i = 0 := by omega
    subst this
    exact le_refl _
  | succ j ih =>
    rcases Nat.lt_or_ge i (j+1) with hlt | hge
    · exact le_trans (ih (by omega) (by omega)) (h j hj)
    · have : i = j + 1 := by omega
      subst this
      exact le_refl _

/-- A consecutive-pairs nonincreasing list is nonincreasing between any
two in-range indices. -/
lemma Nonincr.getD_anti {l : List α} (h : Nonincr l) :
    ∀ i j, i ≤ j → j < l.length → l.getD j 0 ≤ l.getD i 0 := by
  intro i j hij hj
  induction j with
  | zero =>
    have : i = 0 := by omega
    subst this
    exact le_refl _
  | succ j ih =>
    rcases Nat.lt_or_ge i (j+1) with hlt | hge
    · exact le_trans (h j hj) (ih (by omega) (by omega))
    · have : i = j + 1 := by omega
      subst this
      exact le_refl _

/-- When the first pair rises, a clean scan means the list is
nondecreasing. -/
lemma nondecr_of_no_violation_pos (radii_ : List α)
    (hs : 0 < radii_.getD 1 0 - radii_.getD 0 0)
    (hnv : densityOrderViolation radii_ = false) : Nondecr radii_ := by
  intro i hi
  by_contra hcon
  push_neg at hcon
  have hsign : radiiSign radii_ = 1 := by rw [radiiSign, if_pos hs]
  have : densityOrderViolation radii_ = true := by
    rw [densityOrderViolation_iff]
    refine ⟨i, hi, ?_⟩
    rw [hsign, mul_one]
    linarith
  rw [hnv] at this
  exact absurd this (by simp)

/-- When the first pair does not rise, a clean scan means the list is
nonincreasing. -/
lemma nonincr_of_no_violation_neg (radii_ : List α)
    (hs : ¬ 0 < radii_.getD 1 0 - radii_.getD 0 0)
    (hnv : densityOrderViolation radii_ = false) : Nonincr radii_ := by
  intro i hi
  by_contra hcon
  push_neg at hcon
  have hsign : radiiSign radii_ = -1 := by rw [radiiSign, if_neg hs]
  have : densityOrderViolation radii_ = true := by
    rw [densityOrderViolation_iff]
    refine ⟨i, hi, ?_⟩
    rw [hsign]
    nlinarith
  rw [hnv] at this
  exact absurd this (by simp)

/-- `getD` through a reversal, for in-range indices. -/
lemma getD_reverse (l : List α) (i : ℕ) (h : i < l.length) :
    l.reverse.getD i 0 = l.getD (l.length - 1 - i) 0 := by
  have h1 : i < l.reverse.length := by simpa using h
  have h2 : l.length - 1 - i < l.length := by omega
  rw [List.getD_eq_getElem _ _ h1, List.getD_eq_getElem _ _ h2]
  exact List.getElem_reverse ..

/-- `canonFlip` reverses when the first pair strictly rises. -/
lemma canonFlip_pos (radii_ l : List α) (h2 : 2 ≤ radii_.length)
    (hs : 0 < radii_.getD 1 0 - radii_.getD 0 0) :
    canonFlip radii_ l = l.reverse := by
  rw [canonFlip, if_pos ⟨h2, by rw [radiiSign, if_pos hs]⟩]

/-- `canonFlip` keeps the vector when the first pair does not rise. -/
lemma canonFlip_neg (radii_ l : List α)
    (hs : ¬ 0 < radii_.getD 1 0 - radii_.getD 0 0) :
    canonFlip radii_ l = l := by
  rw [canonFlip, if_neg]
  rintro ⟨-, hsign⟩
  rw [radiiSign, if_neg hs] at hsign
  exact absurd hsign (by norm_num)

/-- `canonFlip` keeps the vector when it has fewer than two radii. -/
lemma canonFlip_short (radii_ l : List α) (h : radii_.length < 2) :
    canonFlip radii_ l = l := by
  rw [canonFlip, if_neg]
  rintro ⟨h2, -⟩
  omega

/-- `ofReal` is multiplicative. -/
lemma CNum.ofReal_mul (a b : α) :
    CNum.ofReal (a * b) = CNum.ofReal a * CNum.ofReal b := by
  rw [CNum.ext_iff]
  constructor <;> simp

/-- `ofReal 1` is the complex unit. -/
lemma CNum.ofReal_one : CNum.ofReal (1:α) = 1 := rfl

/-- Componentwise division by a real scalar is multiplication by the
embedded inverse. -/
lemma CNum.divR_eq_inv_mul (z : CNum α) (d : α) :
    z.divR d = CNum.ofReal d⁻¹ * z := by
  rw [CNum.ext_iff]
  constructor <;> simp [CNum.divR, div_eq_mul_inv] <;> ring

/-- `star` on `CNum` is the conjugate. -/
lemma CNum.star_def (z : CNum α) : star z = CNum.conj z := rfl

/-- Quadratic shift product in canonical form:
`(B - a·I)(B - b·I) = B² - (a+b)·B + ab·I`. -/
lemma shift_mul (B : Matrix (Fin 3) (Fin 3) (CNum α)) (a b : α) :
    (B - scalC a) * (B - scalC b) =
      B * B - CNum.ofReal (a + b) • B + scalC (a * b) := by
  funext i j
  fin_cases i <;> fin_cases j <;>
    (rw [CNum.ext_iff]; constructor <;>
      (simp [Matrix.mul_apply, Matrix.one_apply, scalC, Fin.sum_univ_three] <;> ring))

/-- The clearing-of-denominators form of the 3-point Lagrange identity
for the constant polynomial `1`, evaluated at a matrix: for any `B`,
`(m1-m2)·N0 - (m0-m2)·N1 + (m0-m1)·N2 = (m0-m1)(m0-m2)(m1-m2)·I`,
where `N_k` is the product of the two shifted factors skipping `m_k`. -/
lemma lagrange_poly (B : Matrix (Fin 3) (Fin 3) (CNum α)) (m0 m1 m2 : α) :
    CNum.ofReal (m1 - m2) • ((B - scalC m1) * (B - scalC m2)) +
      CNum.ofReal (-(m0 - m2)) • ((B - scalC m2) * (B - scalC m0)) +
      CNum.ofReal (m0 - m1) • ((B - scalC m0) * (B - scalC m1)) =
      CNum.ofReal ((m0 - m1) * (m0 - m2) * (m1 - m2)) • 1 := by
  funext i j
  fin_cases i <;> fin_cases j <;>
    (rw [CNum.ext_iff]; constructor <;>
      (simp [Matrix.mul_apply, Matrix.one_apply, scalC, Fin.sum_univ_three] <;> ring))
/-- Dividing the cleared Lagrange identity by the three pairwise
denominators: the three spectral projectors sum to the identity matrix,
for any `B` and pairwise distinct `m0, m1, m2` (the denominators are
exactly the `dmMatMat` divisor products of `get_product`). -/
lemma lagrange_sum (B : Matrix (Fin 3) (Fin 3) (CNum α)) (m0 m1 m2 : α)
    (h01 : m0 ≠ m1) (h02 : m0 ≠ m2) (h12 : m1 ≠ m2) :
    CNum.ofReal ((m0 - m1) * (m0 - m2))⁻¹ • ((B - scalC m1) * (B - scalC m2)) +
      CNum.ofReal ((m1 - m2) * (m1 - m0))⁻¹ • ((B - scalC m2) * (B - scalC m0)) +
      CNum.ofReal ((m2 - m0) * (m2 - m1))⁻¹ • ((B - scalC m0) * (B - scalC m1)) = 1 := by
  have d01 : m0 - m1 ≠ 0 := sub_ne_zero.mpr h01
  have d02 : m0 - m2 ≠ 0 := sub_ne_zero.mpr h02
  have d12 : m1 - m2 ≠ 0 := sub_ne_zero.mpr h12
  have hD : (m0 - m1) * (m0 - m2) * (m1 - m2) ≠ 0 :=
    mul_ne_zero (mul_ne_zero d01 d02) d12
  have c0 : ((m0 - m1) * (m0 - m2))⁻¹ =
      ((m0 - m1) * (m0 - m2) * (m1 - m2))⁻¹ * (m1 - m2) := by
    field_simp
  have c1 : ((m1 - m2) * (m1 - m0))⁻¹ =
      ((m0 - m1) * (m0 - m2) * (m1 - m2))⁻¹ * (-(m0 - m2)) := by
    rw [show m1 - m0 = -(m0 - m1) by ring]
    rw [show (m1 - m2) * -(m0 - m1) = -((m0 - m1) * (m1 - m2)) by ring]
    field_simp
    ring
  have c2 : ((m2 - m0) * (m2 - m1))⁻¹ =
      ((m0 - m1) * (m0 - m2) * (m1 - m2))⁻¹ * (m0 - m1) := by
    rw [show (m2 - m0) * (m2 - m1) = (m0 - m2) * (m1 - m2) by ring]
    field_simp
    ring
  rw [c0, c1, c2, CNum.ofReal_mul, CNum.ofReal_mul, CNum.ofReal_mul,
    mul_smul, mul_smul, mul_smul, ← smul_add, ← smul_add, lagrange_poly,
    smul_smul, ← CNum.ofReal_mul, inv_mul_cancel₀ hD, CNum.ofReal_one, one_smul]

/-- `getArg` at zero layer length and zero phase offset returns three
zero phase arguments. -/
lemma getArg_zero (E : α) (dmV : Fin 3 → Fin 3 → α) (k : Fin 3) :
    getArg 0 E dmV 0 k = 0 := by
  simp [getArg]

/-- The `2EH - M_j` matrices of `get_product`, fed with the `getMfast`
outputs, are the shifts `Bmat - mMat[j]·I`. -/
lemma twoEHmM_toM (P : Prims α) (U : Fin 3 → Fin 3 → CNum α) (DM : Fin 3 → Fin 3 → α)
    (order : Fin 3 → Fin 3) (type : NeutrinoType) (E rho : α) (j : Fin 3) :
    toM (fun n m => twoEHmM P U (dmMatVac P U DM order type E rho) type E rho n m j) =
      Bmat P U DM type E rho - scalC (mMat P U DM order type E rho j) := by
  funext n m
  rw [CNum.ext_iff]
  constructor <;> by_cases h : n = m <;>
    simp [toM, twoEHmM, Bmat, scalC, dmMatVac, Matrix.sub_apply, Matrix.smul_apply,
      Matrix.one_apply, h, smul_eq_mul] <;> ring

/-- `get_product`, fed with the `getMfast` outputs, produces the three
spectral projectors in shifted-matrix form. -/
lemma get_product_toM (P : Prims α) (U : Fin 3 → Fin 3 → CNum α) (DM : Fin 3 → Fin 3 → α)
    (order : Fin 3 → Fin 3) (type : NeutrinoType) (E rho L : α) (k : Fin 3) :
    toM (fun i j => get_product P U L E rho (dmMatVac P U DM order type E rho)
        (dmMatMat P U DM order type E rho) type i j k) =
      CNum.ofReal ((mMat P U DM order type E rho k - mMat P U DM order type E rho (k+1)) *
          (mMat P U DM order type E rho k - mMat P U DM order type E rho (k+2)))⁻¹ •
        ((Bmat P U DM type E rho - scalC (mMat P U DM order type E rho (k+1))) *
          (Bmat P U DM type E rho - scalC (mMat P U DM order type E rho (k+2)))) := by
  funext i j
  rw [← twoEHmM_toM, ← twoEHmM_toM]
  rw [CNum.ext_iff]
  constructor <;>
    simp [get_product, toM, CNum.divR_eq_inv_mul, Matrix.mul_apply, Matrix.smul_apply,
      smul_eq_mul, dmMatMat, Fin.sum_univ_three]

/-- `getC` at zero phase offset, in matrix form: `C_k = U·P_k·Uᴴ`. -/
lemma getC_toM (P : Prims α) (U : Fin 3 → Fin 3 → CNum α) (E rho : α)
    (dmV dmM : Fin 3 → Fin 3 → α) (type : NeutrinoType)
    (junk : Fin 3 → Fin 3 → Fin 3 → CNum α) (k : Fin 3) :
    toM (fun n m => getC P U E rho dmV dmM type 0 junk k n m) =
      toM U * toM (fun i j => get_product P U ((0:α)/0) E rho dmV dmM type i j k) *
        Matrix.conjTranspose (toM U) := by
  funext n m
  simp only [getC, eq_self_iff_true, if_true]
  rw [CNum.ext_iff]
  constructor <;>
    simp [toM, Matrix.mul_apply, Matrix.conjTranspose_apply, CNum.star_def, CNum.conj,
      Fin.sum_univ_three] <;> ring
/-- The in-loop debug re-check of `calculate` can never fire: the
recombined transition matrix is exactly the `get_transition_matrix`
reference (`getA_eq_recombine`), so no entry ever differs by more than
`1e-9`. -/
lemma debugMismatch_false (P : Prims α) (U : Fin 3 → Fin 3 → CNum α)
    (DM : Fin 3 → Fin 3 → α) (A : CalcIn α) : debugMismatch P U DM A = false := by
  rw [debugMismatch, List.any_eq_false]
  intro ic _
  intro hcontra
  rw [List.any_eq_true] at hcontra
  obtain ⟨ie, -, hcontra⟩ := hcontra
  rw [List.any_eq_true] at hcontra
  obtain ⟨l, -, hcontra⟩ := hcontra
  rw [decide_eq_true_eq] at hcontra
  obtain ⟨i, j, hcase⟩ := hcontra
  have heq : layerTMdirect P U DM A ic ie l = layerTM P U DM A ic ie l :=
    getA_eq_recombine P U (layerDist P A ic l / P.km2cm) (A.energylist ie)
      (layerRho A ic l) _ _ A.type _ _
  rw [heq, sub_self, abs_zero, sub_self, abs_zero] at hcase
  rcases hcase with h | h <;> exact absurd h (by norm_num)

/-- Reading one of the nine just-written probabilities of a bin. -/
lemma writeBinProbs_read (Pr : Fin 3 → Fin 3 → α) (base : ℕ) (buf : ℕ → α)
    (i j : Fin 3) :
    writeBinProbs Pr base buf (base + ((i : ℕ) * 3 + (j : ℕ))) = Pr j i := by
  have hfr : (List.finRange 3) = [0, 1, 2] := rfl
  fin_cases i <;> fin_cases j <;>
    simp [writeBinProbs, hfr, upd, Nat.add_right_cancel_iff]

/-- A bin's nine writes do not touch indices outside `[base, base+9)`. -/
lemma writeBinProbs_outside (Pr : Fin 3 → Fin 3 → α) (base : ℕ) (buf : ℕ → α)
    (idx : ℕ) (h : idx < base ∨ base + 9 ≤ idx) :
    writeBinProbs Pr base buf idx = buf idx := by
  have hfr : (List.finRange 3) = [0, 1, 2] := rfl
  simp only [writeBinProbs, hfr, List.foldl, upd]
  split_ifs <;> first | rfl | omega

/-- Reading outside every block written by an inner (energy) fold. -/
lemma innerFold_outside (g : ℕ → Fin 3 → Fin 3 → α) (C : ℕ) (buf : ℕ → α)
    (n idx : ℕ) (h : ∀ e < n, idx < C + e * 9 ∨ C + e * 9 + 9 ≤ idx) :
    ((List.range n).foldl (fun bf e => writeBinProbs (g e) (C + e * 9) bf) buf) idx =
      buf idx := by
  induction n with
  | zero => rfl
  | succ n ih =>
    rw [List.range_succ, List.foldl_append]
    simp only [List.foldl]
    rw [writeBinProbs_outside _ _ _ _ (h n (by omega))]
    exact ih (fun e he => h e (by omega))

/-- Reading a written entry through an inner (energy) fold. -/
lemma innerFold_read (g : ℕ → Fin 3 → Fin 3 → α) (C : ℕ) (buf : ℕ → α)
    (n ie : ℕ) (hie : ie < n) (K : ℕ) (hK : K < 9) (i j : Fin 3)
    (hKval : K = (i : ℕ) * 3 + (j : ℕ)) :
    ((List.range n).foldl (fun bf e => writeBinProbs (g e) (C + e * 9) bf) buf)
        (C + ie * 9 + K) = g ie j i := by
  induction n with
  | zero => omega
  | succ n ih =>
    rw [List.range_succ, List.foldl_append]
    simp only [List.foldl]
    rcases Nat.lt_or_ge ie n with hlt | hge
    · rw [writeBinProbs_outside _ _ _ _ (by left; omega)]
      exact ih hlt
    · have : ie = n := by omega
      subst this
      rw [show C + ie * 9 + K = (C + ie * 9) + ((i : ℕ) * 3 + (j : ℕ)) by omega]
      exact writeBinProbs_read _ _ _ i j

/-- Block bound: a bin's flat index lies below the next cosine block. -/
lemma block_bound (nE ic ie K : ℕ) (hie : ie < nE) (hK : K < 9) :
    ic * nE * 9 + ie * 9 + K < (ic + 1) * nE * 9 := by
  have h2 : (ie + 1) * 9 ≤ nE * 9 := Nat.mul_le_mul_right 9 hie
  have h1 : ie * 9 + K < nE * 9 := by omega
  have h3 : (ic + 1) * nE * 9 = ic * nE * 9 + nE * 9 := by ring
  rw [h3, Nat.add_assoc]
  exact Nat.add_lt_add_left h1 _

/-- Block monotonicity: later cosine blocks start at or above the end of
earlier ones. -/
lemma block_mono (nE ic ic' : ℕ) (h : ic + 1 ≤ ic') :
    (ic + 1) * nE * 9 ≤ ic' * nE * 9 :=
  Nat.mul_le_mul_right 9 (Nat.mul_le_mul_right nE h)

/-- Reading any written entry of the full `calcResult` buffer: the value
at `ic·nE·9 + ie·9 + (i·3 + j)` is `Prob[j][i]` of bin `(ic, ie)`. -/
lemma calcResult_read (P : Prims α) (U : Fin 3 → Fin 3 → CNum α)
    (DM : Fin 3 → Fin 3 → α) (A : CalcIn α) (buf0 : ℕ → α) (ic ie : ℕ)
    (hic : ic < A.n_cosines) (hie : ie < A.n_energies) (i j : Fin 3) :
    calcResult P U DM A buf0
        (ic * A.n_energies * 9 + ie * 9 + ((i : ℕ) * 3 + (j : ℕ))) =
      binProb P U DM A ic ie j i := by
  have hK : (i : ℕ) * 3 + (j : ℕ) < 9 := by
    have := i.isLt
    have := j.isLt
    omega
  rw [calcResult]
  have main : ∀ n, ic < n →
      ((List.range n).foldl
        (fun buf ic' =>
          (List.range A.n_energies).foldl
            (fun buf2 ie' =>
              writeBinProbs (binProb P U DM A ic' ie') (ic' * A.n_energies * 9 + ie' * 9) buf2)
            buf)
        buf0) (ic * A.n_energies * 9 + ie * 9 + ((i : ℕ) * 3 + (j : ℕ))) =
      binProb P U DM A ic ie j i := by
    intro n
    induction n with
    | zero => omega
    | succ n ih =>
      intro hlt
      rw [List.range_succ, List.foldl_append]
      simp only [List.foldl]
      rcases Nat.lt_or_ge ic n with hlt' | hge
      · rw [show (fun buf2 ie' =>
            writeBinProbs (binProb P U DM A n ie') (n * A.n_energies * 9 + ie' * 9) buf2) =
            (fun buf2 ie' =>
              writeBinProbs (binProb P U DM A n ie') (n * A.n_energies * 9 + ie' * 9) buf2)
            from rfl]
        rw [innerFold_outside (fun ie' => binProb P U DM A n ie') (n * A.n_energies * 9) _
          A.n_energies _ ?hout]
        case hout =>
          intro e _
          left
          have hb := block_bound A.n_energies ic ie ((i : ℕ) * 3 + (j : ℕ)) hie hK
          have hm := block_mono A.n_energies ic n hlt'
          omega
        exact ih hlt'
      · have : ic = n := by omega
        subst this
        exact innerFold_read (fun ie' => binProb P U DM A ic ie') (ic * A.n_energies * 9)
          _ A.n_energies ie hie _ hK i j rfl
  exact main A.n_cosines hic

/-- Indexing a flattened list of constant-length chunks. -/
lemma flatten_getD (L : List (List α)) (n : ℕ) (hn : ∀ l ∈ L, l.length = n)
    (q r : ℕ) (hq : q < L.length) (hr : r < n) :
    L.flatten.getD (q * n + r) 0 = (L.getD q []).getD r 0 := by
  induction L generalizing q with
  | nil => simp at hq
  | cons hd tl ih =>
    rw [List.flatten_cons]
    rcases Nat.eq_zero_or_pos q with hq0 | hqpos
    · subst hq0
      rw [zero_mul, zero_add]
      have hlen : hd.length = n := hn hd (by simp)
      rw [List.getD_append _ _ _ _ (by omega)]
      rfl
    · obtain ⟨q', rfl⟩ : ∃ q', q = q' + 1 := ⟨q - 1, by omega⟩
      have hlen : hd.length = n := hn hd (by simp)
      have hidx : (q' + 1) * n + r = hd.length + (q' * n + r) := by
        rw [hlen]; ring
      rw [hidx, List.getD_append_right _ _ _ _ (by omega),
        show hd.length + (q' * n + r) - hd.length = q' * n + r by omega]
      have := ih (fun l hl => hn l (by simp [hl])) q' (by simpa using hq)
      rw [this]
      rfl

/-- `ofReal` respects subtraction. -/
lemma CNum.ofReal_sub (a b : α) :
    CNum.ofReal (a - b) = CNum.ofReal a - CNum.ofReal b := by
  rw [CNum.ext_iff]
  constructor <;> simp [sub_eq_add_neg]

/-- Conjugation fixes embedded reals. -/
lemma CNum.star_ofReal (a : α) : star (CNum.ofReal a) = CNum.ofReal a := by
  rw [CNum.star_def, CNum.ext_iff]
  constructor <;> simp [CNum.conj]

/-- Left multiplication by the scalar matrix is scalar action. -/
lemma scalC_mul_left (c : α) (X : Matrix (Fin 3) (Fin 3) (CNum α)) :
    scalC c * X = CNum.ofReal c • X := by
  rw [scalC, smul_mul_assoc, one_mul]

/-- Shifted factors of the same matrix commute. -/
lemma shift_comm (B : Matrix (Fin 3) (Fin 3) (CNum α)) (a b : α) :
    (B - scalC a) * (B - scalC b) = (B - scalC b) * (B - scalC a) := by
  rw [shift_mul, shift_mul, add_comm b a, mul_comm b a]

/-- The scalar matrix of a real is Hermitian. -/
lemma scalC_conjTranspose (c : α) :
    Matrix.conjTranspose (scalC c) = scalC c := by
  rw [scalC, Matrix.conjTranspose_smul, Matrix.conjTranspose_one, CNum.star_ofReal]

/-- The characteristic equation kills the complementary factor pair:
`(B - m_k)·N_k = 0` whenever the full product of the three shifted
factors vanishes. -/
lemma shiftN (B : Matrix (Fin 3) (Fin 3) (CNum α)) (m : Fin 3 → α)
    (hchar : (B - scalC (m 0)) * (B - scalC (m 1)) * (B - scalC (m 2)) = 0) (k : Fin 3) :
    (B - scalC (m k)) * Nmat B m k = 0 := by
  fin_cases k
  · show (B - scalC (m 0)) * ((B - scalC (m 1)) * (B - scalC (m 2))) = 0
    rw [← mul_assoc]
    exact hchar
  · show (B - scalC (m 1)) * ((B - scalC (m 2)) * (B - scalC (m 0))) = 0
    rw [shift_comm B (m 2) (m 0), ← mul_assoc, shift_comm B (m 1) (m 0)]
    exact hchar
  · show (B - scalC (m 2)) * ((B - scalC (m 0)) * (B - scalC (m 1))) = 0
    rw [← mul_assoc, shift_comm B (m 2) (m 0), mul_assoc, shift_comm B (m 2) (m 1),
      ← mul_assoc]
    exact hchar

/-- `B` acts on `N_k` as the eigenvalue `m_k`. -/
lemma BN_smul (B : Matrix (Fin 3) (Fin 3) (CNum α)) (m : Fin 3 → α)
    (hchar : (B - scalC (m 0)) * (B - scalC (m 1)) * (B - scalC (m 2)) = 0) (k : Fin 3) :
    B * Nmat B m k = CNum.ofReal (m k) • Nmat B m k := by
  have h := shiftN B m hchar k
  rw [sub_mul, scalC_mul_left, sub_eq_zero] at h
  exact h

/-- Any shifted factor acts on `N_k` as the scalar `m_k - a`. -/
lemma shiftN_general (B : Matrix (Fin 3) (Fin 3) (CNum α)) (m : Fin 3 → α)
    (hchar : (B - scalC (m 0)) * (B - scalC (m 1)) * (B - scalC (m 2)) = 0)
    (a : α) (k : Fin 3) :
    (B - scalC a) * Nmat B m k = CNum.ofReal (m k - a) • Nmat B m k := by
  rw [sub_mul, scalC_mul_left, BN_smul B m hchar k, CNum.ofReal_sub, sub_smul]

/-- Product of two numerators: `N_l·N_k = (m_k-m_{l+1})(m_k-m_{l+2})·N_k`. -/
lemma NNmul (B : Matrix (Fin 3) (Fin 3) (CNum α)) (m : Fin 3 → α)
    (hchar : (B - scalC (m 0)) * (B - scalC (m 1)) * (B - scalC (m 2)) = 0)
    (l k : Fin 3) :
    Nmat B m l * Nmat B m k =
      CNum.ofReal ((m k - m (l+1)) * (m k - m (l+2))) • Nmat B m k := by
  rw [show Nmat B m l = (B - scalC (m (l+1))) * (B - scalC (m (l+2))) from rfl, mul_assoc,
    shiftN_general B m hchar (m (l+2)) k, mul_smul_comm, shiftN_general B m hchar (m (l+1)) k,
    smul_smul, ← CNum.ofReal_mul, mul_comm (m k - m (l+2)) (m k - m (l+1))]

/-- Distinct spectral projectors annihilate each other. -/
lemma Pproj_orth (B : Matrix (Fin 3) (Fin 3) (CNum α)) (m : Fin 3 → α)
    (hchar : (B - scalC (m 0)) * (B - scalC (m 1)) * (B - scalC (m 2)) = 0)
    (l k : Fin 3) (h : l ≠ k) :
    Pproj B m l * Pproj B m k = 0 := by
  rw [Pproj, Pproj, smul_mul_assoc, mul_smul_comm, NNmul B m hchar l k]
  have hk : k = l + 1 ∨ k = l + 2 := by
    fin_cases l <;> fin_cases k <;> revert h <;> decide
  have hz : CNum.ofReal ((m k - m (l+1)) * (m k - m (l+2))) = 0 := by
    rcases hk with rfl | rfl
    · rw [sub_self, zero_mul]
      rfl
    · rw [sub_self, mul_zero]
      rfl
  rw [hz, zero_smul, smul_zero, smul_zero]

/-- A spectral projector with a nondegenerate eigenvalue is idempotent. -/
lemma Pproj_idem (B : Matrix (Fin 3) (Fin 3) (CNum α)) (m : Fin 3 → α)
    (hchar : (B - scalC (m 0)) * (B - scalC (m 1)) * (B - scalC (m 2)) = 0)
    (k : Fin 3) (hd1 : m k ≠ m (k+1)) (hd2 : m k ≠ m (k+2)) :
    Pproj B m k * Pproj B m k = Pproj B m k := by
  rw [Pproj, smul_mul_assoc, mul_smul_comm, NNmul B m hchar k k, smul_smul, smul_smul,
    mul_assoc, ← CNum.ofReal_mul,
    inv_mul_cancel₀ (mul_ne_zero (sub_ne_zero.mpr hd1) (sub_ne_zero.mpr hd2)),
    CNum.ofReal_one, mul_one]

/-- The three spectral projectors sum to the identity (Lagrange). -/
lemma Pproj_sum (B : Matrix (Fin 3) (Fin 3) (CNum α)) (m : Fin 3 → α)
    (h01 : m 0 ≠ m 1) (h02 : m 0 ≠ m 2) (h12 : m 1 ≠ m 2) :
    Pproj B m 0 + Pproj B m 1 + Pproj B m 2 = 1 :=
  lagrange_sum B (m 0) (m 1) (m 2) h01 h02 h12

/-- `N_k` is Hermitian when `B` is. -/
lemma Nmat_herm (B : Matrix (Fin 3) (Fin 3) (CNum α)) (m : Fin 3 → α)
    (hB : Matrix.conjTranspose B = B) (k : Fin 3) :
    Matrix.conjTranspose (Nmat B m k) = Nmat B m k := by
  rw [Nmat, Matrix.conjTranspose_mul, Matrix.conjTranspose_sub, Matrix.conjTranspose_sub,
    hB, scalC_conjTranspose, scalC_conjTranspose, shift_comm]

/-- The spectral projectors are Hermitian when `B` is. -/
lemma Pproj_herm (B : Matrix (Fin 3) (Fin 3) (CNum α)) (m : Fin 3 → α)
    (hB : Matrix.conjTranspose B = B) (k : Fin 3) :
    Matrix.conjTranspose (Pproj B m k) = Pproj B m k := by
  rw [Pproj, Matrix.conjTranspose_smul, CNum.star_ofReal, Nmat_herm B m hB k]

/-- The effective Hamiltonian of `get_product` is Hermitian. -/
lemma Bmat_herm (P : Prims α) (U : Fin 3 → Fin 3 → CNum α) (DM : Fin 3 → Fin 3 → α)
    (type : NeutrinoType) (E rho : α) :
    Matrix.conjTranspose (Bmat P U DM type E rho) = Bmat P U DM type E rho := by
  funext n m
  rw [Matrix.conjTranspose_apply, CNum.star_def, CNum.ext_iff]
  constructor
  · by_cases h : n = m
    · subst h
      simp [Bmat, CNum.conj]
    · have h2 : ¬(m = n) := fun hh => h hh.symm
      simp only [Bmat, CNum.conj, Matrix.of_apply, if_neg h, if_neg h2, add_zero]
      ring
  · simp only [Bmat, CNum.conj, Matrix.of_apply]
    ring

/-- `multiply_complex_matrix` is matrix multiplication in matrix view. -/
lemma cmul_toM (X Y : Fin 3 → Fin 3 → CNum α) : toM (cmul X Y) = toM X * toM Y := by
  funext i j
  simp [cmul, toM, Matrix.mul_apply]

/-- The cleared-to-unit accumulator is the identity matrix. -/
lemma idM_toM : toM (idM : Fin 3 → Fin 3 → CNum α) = 1 := by
  funext i j
  simp [idM, toM, Matrix.one_apply]

/-- The product of two matrices with `M·Mᴴ = 1` again satisfies it. -/
lemma unitary_cmul (X Y : Fin 3 → Fin 3 → CNum α)
    (hX : toM X * Matrix.conjTranspose (toM X) = 1)
    (hY : toM Y * Matrix.conjTranspose (toM Y) = 1) :
    toM (cmul X Y) * Matrix.conjTranspose (toM (cmul X Y)) = 1 := by
  rw [cmul_toM, Matrix.conjTranspose_mul, mul_assoc, ← mul_assoc (toM Y), hY, one_mul, hX]

/-- The phase recombination in matrix view: a phase-weighted sum of the
coefficient matrices. -/
lemma toM_recombine (P : Prims α) (arg : Fin 3 → α) (C : Fin 3 → Fin 3 → Fin 3 → CNum α) :
    toM (recombineExpansion P arg C) =
      ∑ k : Fin 3, phaseC P (arg k) • toM (fun i j => C k i j) := by
  funext i j
  simp [recombineExpansion, toM, Matrix.sum_apply, Matrix.smul_apply, smul_eq_mul]

/-- The diagonal of `Mᴴ·M` is the column-wise sum of squared magnitudes. -/
lemma conjTranspose_mul_diag (M : Fin 3 → Fin 3 → CNum α) (b : Fin 3) :
    (Matrix.conjTranspose (toM M) * toM M) b b =
      CNum.ofReal (∑ a : Fin 3, CNum.normSq (M a b)) := by
  rw [CNum.ext_iff]
  constructor <;>
    simp [Matrix.mul_apply, Matrix.conjTranspose_apply, CNum.star_def, CNum.conj,
      CNum.normSq, toM, Fin.sum_univ_three] <;> ring

/-- A phase-weighted sum of conjugated spectral projectors is unitary:
the algebraic core of per-layer unitarity of the recombined transition
matrix. -/
lemma spectral_sum_unitary (P : Prims α) (U : Fin 3 → Fin 3 → CNum α)
    (B : Matrix (Fin 3) (Fin 3) (CNum α)) (m arg : Fin 3 → α)
    (hU : toM U * Matrix.conjTranspose (toM U) = 1)
    (hB : Matrix.conjTranspose B = B)
    (hchar : (B - scalC (m 0)) * (B - scalC (m 1)) * (B - scalC (m 2)) = 0)
    (h01 : m 0 ≠ m 1) (h02 : m 0 ≠ m 2) (h12 : m 1 ≠ m 2)
    (hpy : ∀ k : Fin 3, P.cosF (arg k) ^ 2 + P.sinF (arg k) ^ 2 = 1) :
    (∑ k : Fin 3, phaseC P (arg k) • (toM U * Pproj B m k * Matrix.conjTranspose (toM U))) *
      Matrix.conjTranspose
        (∑ k : Fin 3, phaseC P (arg k) •
          (toM U * Pproj B m k * Matrix.conjTranspose (toM U))) = 1 := by
  have hVV : Matrix.conjTranspose (toM U) * toM U = 1 := Matrix.mul_eq_one_comm.mp hU
  have hXh : ∀ k : Fin 3,
      Matrix.conjTranspose (toM U * Pproj B m k * Matrix.conjTranspose (toM U)) =
        toM U * Pproj B m k * Matrix.conjTranspose (toM U) := by
    intro k
    rw [Matrix.conjTranspose_mul, Matrix.conjTranspose_mul,
      Matrix.conjTranspose_conjTranspose, Pproj_herm B m hB k, mul_assoc]
  have hXX : ∀ k l : Fin 3,
      (toM U * Pproj B m k * Matrix.conjTranspose (toM U)) *
        (toM U * Pproj B m l * Matrix.conjTranspose (toM U)) =
      toM U * (Pproj B m k * Pproj B m l) * Matrix.conjTranspose (toM U) := by
    intro k l
    simp only [mul_assoc]
    rw [← mul_assoc (Matrix.conjTranspose (toM U)) (toM U), hVV, one_mul]
  have hphase : ∀ k : Fin 3, star (phaseC P (arg k)) * phaseC P (arg k) = 1 := by
    intro k
    have h := hpy k
    rw [pow_two, pow_two] at h
    rw [CNum.star_def, CNum.ext_iff]
    constructor
    · simp [phaseC, CNum.conj]
      linear_combination h
    · simp [phaseC, CNum.conj]
      ring
  rw [Fin.sum_univ_three]
  rw [Matrix.conjTranspose_add, Matrix.conjTranspose_add, Matrix.conjTranspose_smul,
    Matrix.conjTranspose_smul, Matrix.conjTranspose_smul, hXh 0, hXh 1, hXh 2]
  rw [add_mul, add_mul, mul_add, mul_add, mul_add, mul_add, mul_add, mul_add]
  simp only [Matrix.smul_mul, Matrix.mul_smul, smul_smul]
  rw [hXX 0 0, hXX 0 1, hXX 0 2, hXX 1 0, hXX 1 1, hXX 1 2, hXX 2 0, hXX 2 1, hXX 2 2]
  rw [Pproj_orth B m hchar 0 1 (by decide), Pproj_orth B m hchar 0 2 (by decide),
    Pproj_orth B m hchar 1 0 (by decide), Pproj_orth B m hchar 1 2 (by decide),
    Pproj_orth B m hchar 2 0 (by decide), Pproj_orth B m hchar 2 1 (by decide)]
  simp only [Matrix.mul_zero, Matrix.zero_mul, smul_zero, add_zero, zero_add]
  rw [Pproj_idem B m hchar 0 h01 h02, Pproj_idem B m hchar 1 h12 (Ne.symm h01),
    Pproj_idem B m hchar 2 (Ne.symm h02) (Ne.symm h12)]
  rw [hphase 0, hphase 1, hphase 2, one_smul, one_smul, one_smul]
  rw [← add_mul, ← add_mul, ← mul_add, ← mul_add,
    Pproj_sum B m h01 h02 h12, mul_one, hU]

/-- The coefficient matrices of a layer expansion, in matrix view:
`C_k = U·P_k·Uᴴ` with the layer effective Hamiltonian and matter masses. -/
lemma layerC_toM (P : Prims α) (U : Fin 3 → Fin 3 → CNum α) (DM : Fin 3 → Fin 3 → α)
    (A : CalcIn α) (ic ie l : ℕ) (k : Fin 3) :
    toM (fun i j => (layerExp P U DM A ic ie l).2 k i j) =
      toM U *
        Pproj (Bmat P U DM A.type (A.energylist ie) (layerRho A ic l))
          (mMat P U DM (prepareOrder P DM) A.type (A.energylist ie) (layerRho A ic l)) k *
        Matrix.conjTranspose (toM U) := by
  have h2 : (layerExp P U DM A ic ie l).2 =
      getC P U (A.energylist ie) (layerRho A ic l)
        (dmMatVac P U DM (prepareOrder P DM) A.type (A.energylist ie) (layerRho A ic l))
        (dmMatMat P U DM (prepareOrder P DM) A.type (A.energylist ie) (layerRho A ic l))
        A.type 0 (fun _ _ _ => 0) := rfl
  rw [h2, getC_toM, get_product_toM P U DM (prepareOrder P DM) A.type (A.energylist ie)
    (layerRho A ic l) ((0:α)/0) k]
  rfl

/-- A conjugated projector `U·P_k·Uᴴ` is Hermitian when `B` is. -/
lemma UPU_herm (U : Fin 3 → Fin 3 → CNum α) (B : Matrix (Fin 3) (Fin 3) (CNum α))
    (m : Fin 3 → α) (hB : Matrix.conjTranspose B = B) (k : Fin 3) :
    Matrix.conjTranspose (toM U * Pproj B m k * Matrix.conjTranspose (toM U)) =
      toM U * Pproj B m k * Matrix.conjTranspose (toM U) := by
  rw [Matrix.conjTranspose_mul, Matrix.conjTranspose_mul,
    Matrix.conjTranspose_conjTranspose, Pproj_herm B m hB k, mul_assoc]

/-- Products of conjugated projectors contract through `Uᴴ·U = 1`. -/
lemma UPU_mul (U : Fin 3 → Fin 3 → CNum α) (B : Matrix (Fin 3) (Fin 3) (CNum α))
    (m : Fin 3 → α) (hVV : Matrix.conjTranspose (toM U) * toM U = 1) (k l : Fin 3) :
    (toM U * Pproj B m k * Matrix.conjTranspose (toM U)) *
      (toM U * Pproj B m l * Matrix.conjTranspose (toM U)) =
      toM U * (Pproj B m k * Pproj B m l) * Matrix.conjTranspose (toM U) := by
  simp only [mul_assoc]
  rw [← mul_assoc (Matrix.conjTranspose (toM U)) (toM U), hVV, one_mul]

/-- The recombined per-layer transition matrix, in matrix view: the
phase-weighted sum of the conjugated spectral projectors. -/
lemma layerTM_toM (P : Prims α) (U : Fin 3 → Fin 3 → CNum α) (DM : Fin 3 → Fin 3 → α)
    (A : CalcIn α) (ic ie l : ℕ) :
    toM (layerTM P U DM A ic ie l) =
      ∑ k : Fin 3, phaseC P ((layerExp P U DM A ic ie l).1 k) •
        (toM U *
          Pproj (Bmat P U DM A.type (A.energylist ie) (layerRho A ic l))
            (mMat P U DM (prepareOrder P DM) A.type (A.energylist ie) (layerRho A ic l)) k *
          Matrix.conjTranspose (toM U)) := by
  rw [layerTM, toM_recombine]
  refine Finset.sum_congr rfl fun k _ => ?_
  rw [layerC_toM]

/-- Each per-layer transition matrix is unitary, given the layer
characteristic equation, distinct matter masses and the circle identity
at the layer phases. -/
lemma layerTM_unitary (P : Prims α) (U : Fin 3 → Fin 3 → CNum α) (DM : Fin 3 → Fin 3 → α)
    (A : CalcIn α) (ic ie l : ℕ)
    (hU : toM U * Matrix.conjTranspose (toM U) = 1)
    (hchar :
      (Bmat P U DM A.type (A.energylist ie) (layerRho A ic l) -
          scalC (mMat P U DM (prepareOrder P DM) A.type (A.energylist ie) (layerRho A ic l) 0)) *
        (Bmat P U DM A.type (A.energylist ie) (layerRho A ic l) -
          scalC (mMat P U DM (prepareOrder P DM) A.type (A.energylist ie) (layerRho A ic l) 1)) *
        (Bmat P U DM A.type (A.energylist ie) (layerRho A ic l) -
          scalC (mMat P U DM (prepareOrder P DM) A.type (A.energylist ie) (layerRho A ic l) 2)) = 0)
    (h01 : mMat P U DM (prepareOrder P DM) A.type (A.energylist ie) (layerRho A ic l) 0 ≠
      mMat P U DM (prepareOrder P DM) A.type (A.energylist ie) (layerRho A ic l) 1)
    (h02 : mMat P U DM (prepareOrder P DM) A.type (A.energylist ie) (layerRho A ic l) 0 ≠
      mMat P U DM (prepareOrder P DM) A.type (A.energylist ie) (layerRho A ic l) 2)
    (h12 : mMat P U DM (prepareOrder P DM) A.type (A.energylist ie) (layerRho A ic l) 1 ≠
      mMat P U DM (prepareOrder P DM) A.type (A.energylist ie) (layerRho A ic l) 2)
    (hpy : ∀ k : Fin 3, P.cosF ((layerExp P U DM A ic ie l).1 k) ^ 2 +
      P.sinF ((layerExp P U DM A ic ie l).1 k) ^ 2 = 1) :
    toM (layerTM P U DM A ic ie l) *
      Matrix.conjTranspose (toM (layerTM P U DM A ic ie l)) = 1 := by
  rw [layerTM_toM]
  exact spectral_sum_unitary P U
    (Bmat P U DM A.type (A.energylist ie) (layerRho A ic l))
    (mMat P U DM (prepareOrder P DM) A.type (A.energylist ie) (layerRho A ic l))
    ((layerExp P U DM A ic ie l).1) hU
    (Bmat_herm P U DM A.type (A.energylist ie) (layerRho A ic l)) hchar h01 h02 h12 hpy

/-- The layer-composition fold preserves unitarity of both the running
transition matrix and the core-to-mantle accumulator. -/
lemma foldl_layerStep_unitary (TMf : ℕ → Fin 3 → Fin 3 → CNum α) (ML : ℕ)
    (L : List ℕ) (acc : (Fin 3 → Fin 3 → CNum α) × (Fin 3 → Fin 3 → CNum α))
    (hL : ∀ l ∈ L, toM (TMf l) * Matrix.conjTranspose (toM (TMf l)) = 1)
    (h1 : toM acc.1 * Matrix.conjTranspose (toM acc.1) = 1)
    (h2 : toM acc.2 * Matrix.conjTranspose (toM acc.2) = 1) :
    toM (L.foldl (fun a l => layerStep (TMf l) l ML a) acc).1 *
      Matrix.conjTranspose (toM (L.foldl (fun a l => layerStep (TMf l) l ML a) acc).1) = 1 ∧
    toM (L.foldl (fun a l => layerStep (TMf l) l ML a) acc).2 *
      Matrix.conjTranspose (toM (L.foldl (fun a l => layerStep (TMf l) l ML a) acc).2) = 1 := by
  induction L generalizing acc with
  | nil => exact ⟨h1, h2⟩
  | cons x xs ih =>
    rw [List.foldl_cons]
    apply ih
    · intro l hl
      exact hL l (List.mem_cons_of_mem _ hl)
    · rw [layerStep]
      split_ifs
      · exact hL x (List.mem_cons_self _ _)
      · exact unitary_cmul _ _ (hL x (List.mem_cons_self _ _)) h1
      · exact unitary_cmul _ _ (hL x (List.mem_cons_self _ _)) h1
    · rw [layerStep]
      split_ifs
      · exact h2
      · exact unitary_cmul _ _ h2 (hL x (List.mem_cons_self _ _))
      · exact h2

/-- The final transition matrix of a bin is unitary, given the
per-layer characteristic equations, distinct masses and circle
identities. -/
lemma binFinalTM_unitary (P : Prims α) (U : Fin 3 → Fin 3 → CNum α)
    (DM : Fin 3 → Fin 3 → α) (A : CalcIn α) (ic ie : ℕ)
    (hU : toM U * Matrix.conjTranspose (toM U) = 1)
    (hlayer : ∀ l, l < A.maxlayers ic + 1 →
      ((Bmat P U DM A.type (A.energylist ie) (layerRho A ic l) -
          scalC (mMat P U DM (prepareOrder P DM) A.type (A.energylist ie) (layerRho A ic l) 0)) *
        (Bmat P U DM A.type (A.energylist ie) (layerRho A ic l) -
          scalC (mMat P U DM (prepareOrder P DM) A.type (A.energylist ie) (layerRho A ic l) 1)) *
        (Bmat P U DM A.type (A.energylist ie) (layerRho A ic l) -
          scalC (mMat P U DM (prepareOrder P DM) A.type (A.energylist ie) (layerRho A ic l) 2)) = 0) ∧
      (mMat P U DM (prepareOrder P DM) A.type (A.energylist ie) (layerRho A ic l) 0 ≠
        mMat P U DM (prepareOrder P DM) A.type (A.energylist ie) (layerRho A ic l) 1 ∧
       mMat P U DM (prepareOrder P DM) A.type (A.energylist ie) (layerRho A ic l) 0 ≠
        mMat P U DM (prepareOrder P DM) A.type (A.energylist ie) (layerRho A ic l) 2 ∧
       mMat P U DM (prepareOrder P DM) A.type (A.energylist ie) (layerRho A ic l) 1 ≠
        mMat P U DM (prepareOrder P DM) A.type (A.energylist ie) (layerRho A ic l) 2) ∧
      (∀ k : Fin 3, P.cosF ((layerExp P U DM A ic ie l).1 k) ^ 2 +
        P.sinF ((layerExp P U DM A ic ie l).1 k) ^ 2 = 1)) :
    toM (binFinalTM P U DM A ic ie) *
      Matrix.conjTranspose (toM (binFinalTM P U DM A ic ie)) = 1 := by
  have hid : toM (idM : Fin 3 → Fin 3 → CNum α) *
      Matrix.conjTranspose (toM (idM : Fin 3 → Fin 3 → CNum α)) = 1 := by
    rw [idM_toM, Matrix.conjTranspose_one, mul_one]
  have h := foldl_layerStep_unitary (fun l => layerTM P U DM A ic ie l) (A.maxlayers ic)
    (List.range (A.maxlayers ic + 1)) (idM, idM)
    (fun l hl => by
      obtain ⟨hc, ⟨ha, hb2, hc2⟩, hp⟩ := hlayer l (List.mem_range.mp hl)
      exact layerTM_unitary P U DM A ic ie l hU hc ha hb2 hc2 hp)
    hid hid
  rw [binFinalTM]
  exact unitary_cmul _ _ h.2 h.1

/-- The Gram matrix of two bin products contracts to a conjugated
projector product: `(F·C_j)ᴴ·(F·C_i) = U·P_j·P_i·Uᴴ`. -/
lemma binProduct_gram (P : Prims α) (U : Fin 3 → Fin 3 → CNum α)
    (DM : Fin 3 → Fin 3 → α) (A : CalcIn α) (ic ie : ℕ)
    (hVV : Matrix.conjTranspose (toM U) * toM U = 1)
    (hFh : Matrix.conjTranspose (toM (binFinalTM P U DM A ic ie)) *
      toM (binFinalTM P U DM A ic ie) = 1)
    (jE iE : Fin 3) :
    Matrix.conjTranspose (toM (binProduct P U DM A ic ie jE)) *
      toM (binProduct P U DM A ic ie iE) =
      toM U *
        (Pproj (Bmat P U DM A.type (A.energylist ie) (layerRho A ic 0))
            (mMat P U DM (prepareOrder P DM) A.type (A.energylist ie) (layerRho A ic 0)) jE *
         Pproj (Bmat P U DM A.type (A.energylist ie) (layerRho A ic 0))
            (mMat P U DM (prepareOrder P DM) A.type (A.energylist ie) (layerRho A ic 0)) iE) *
        Matrix.conjTranspose (toM U) := by
  have hBP : ∀ k : Fin 3, toM (binProduct P U DM A ic ie k) =
      toM (binFinalTM P U DM A ic ie) *
        toM (fun i j => (layerExp P U DM A ic ie 0).2 k i j) := fun k => cmul_toM _ _
  rw [hBP jE, hBP iE, Matrix.conjTranspose_mul, layerC_toM, layerC_toM,
    UPU_herm U (Bmat P U DM A.type (A.energylist ie) (layerRho A ic 0))
      (mMat P U DM (prepareOrder P DM) A.type (A.energylist ie) (layerRho A ic 0))
      (Bmat_herm P U DM A.type (A.energylist ie) (layerRho A ic 0)) jE]
  simp only [mul_assoc]
  rw [← mul_assoc (Matrix.conjTranspose (toM (binFinalTM P U DM A ic ie)))
      (toM (binFinalTM P U DM A ic ie)), hFh, one_mul,
    ← mul_assoc (Matrix.conjTranspose (toM U)) (toM U), hVV, one_mul]

/-- The flavor-summed cross term is twice the real part of a Gram entry
weighted by the shift factor. -/
lemma binCross_rowsum (P : Prims α) (U : Fin 3 → Fin 3 → CNum α)
    (DM : Fin 3 → Fin 3 → α) (A : CalcIn α) (ic ie : ℕ) (iE jE b : Fin 3) :
    ∑ a : Fin 3, binCross P U DM A ic ie iE jE a b =
      2 * ((Matrix.conjTranspose (toM (binProduct P U DM A ic ie jE)) *
        toM (binProduct P U DM A ic ie iE)) b b *
        totalLenShiftFactor P U DM A ic ie iE jE b).re := by
  simp only [binCross, Matrix.mul_apply, Matrix.conjTranspose_apply, CNum.star_def,
    CNum.conj, toM, Matrix.of_apply, Fin.sum_univ_three, CNum.mul_re, CNum.mul_im,
    CNum.add_re, CNum.add_im]
  ring

/-! ### Claim theorems -/

/-- **C4.** In `getMfast` (and `prepare_getMfast`), the argument handed to
`acos` always lies in `[-1,1]`: an argument whose magnitude exceeds `1`
is replaced by its sign via `argtmp/fabs(argtmp)`, so the arc-cosine
(applied to `mfArg` in `mfTheta`, to `pvArg` in `pvTheta`) never receives
an out-of-domain value, for every energy, density and neutrino type. -/
theorem C4_acos_argument_clamped (P : Prims α) (U : Fin 3 → Fin 3 → CNum α)
    (DM : Fin 3 → Fin 3 → α) (type : NeutrinoType) (E rho : α) :
    (-1 ≤ mfArg P U DM type E rho ∧ mfArg P U DM type E rho ≤ 1) ∧
    (-1 ≤ pvArg P DM ∧ pvArg P DM ≤ 1) :=
  ⟨abs_le.mp (abs_clamp_le_one (mfArgtmp P U DM type E rho)),
   abs_le.mp (abs_clamp_le_one (pvArgtmp P DM))⟩

/-- **C1.** For every neutrino type, energy, density, path length and zero
phase offset, the direct 3×3 transition amplitude returned by
`get_transition_matrix` equals, entry by entry, the recombination sum
`Σ_k Cout[k]·exp(i·Arg[k])` of the spectral expansion returned by
`get_transition_matrix_expansion` (exact equality in the embedding, hence
within the `1e-9` tolerance the code asserts). -/
theorem C1_transition_matrix_matches_expansion (P : Prims α)
    (U : Fin 3 → Fin 3 → CNum α) (DM : Fin 3 → Fin 3 → α) (order : Fin 3 → Fin 3)
    (type : NeutrinoType) (Enu rho Len phase_offset : α)
    (junkA junkC : Fin 3 → Fin 3 → Fin 3 → CNum α)
    (h : phase_offset = 0) :
    get_transition_matrix P U DM order type Enu rho Len phase_offset junkA =
      recombineExpansion P
        (get_transition_matrix_expansion P U DM order type Enu rho Len phase_offset junkC).1
        (get_transition_matrix_expansion P U DM order type Enu rho Len phase_offset junkC).2 := by
  subst h
  exact getA_eq_recombine P U Len Enu rho _ _ type junkA junkC

/-- Witness for **C1** at a concrete rational input. -/
theorem C1_witness :
    (0 : ℚ) = 0 ∧
      get_transition_matrix (⟨id, id, id, id, 0, 1, 1, 1, 1⟩ : Prims ℚ)
          (fun _ _ => ⟨1, 0⟩) (fun _ _ => 1) id NeutrinoType.Neutrino 1 1 1 0
          (fun _ _ _ => 0) =
        recombineExpansion ⟨id, id, id, id, 0, 1, 1, 1, 1⟩
          (get_transition_matrix_expansion (⟨id, id, id, id, 0, 1, 1, 1, 1⟩ : Prims ℚ)
            (fun _ _ => ⟨1, 0⟩) (fun _ _ => 1) id NeutrinoType.Neutrino 1 1 1 0
            (fun _ _ _ => 0)).1
          (get_transition_matrix_expansion (⟨id, id, id, id, 0, 1, 1, 1, 1⟩ : Prims ℚ)
            (fun _ _ => ⟨1, 0⟩) (fun _ _ => 1) id NeutrinoType.Neutrino 1 1 1 0
            (fun _ _ _ => 0)).2 :=
  ⟨rfl, C1_transition_matrix_matches_expansion _ _ _ _ _ _ _ _ _ _ _ rfl⟩

/-- **C3 (counterexample).** The claim that the epsilon perturbation makes
the `get_product` divisor products "never zero" is false: for the concrete
mass-splitting inputs `dm12sq = 0` (degenerate, hence perturbed by
`5.0e-9`) and `dm23sq = -5.0e-9`, at density `0` (the density every
atmosphere layer has) the reordered matter masses satisfy
`mMat[0] = mMat[2]`, so the divisor `dmMatMat[0][1]·dmMatMat[0][2]` of
`get_product` is exactly zero (with the genuine real `sqrt`/`acos`/`cos`). -/
theorem C3_counterexample :
    dmMatMat (⟨Real.sqrt, Real.arccos, Real.cos, Real.sin, Real.pi, 1, 1, 1, 1⟩ : Prims ℝ)
        (fun i j => if i = j then ⟨1, 0⟩ else ⟨0, 0⟩)
        (setNeutrinoMasses 0 (-(5e-9)))
        (prepareOrder ⟨Real.sqrt, Real.arccos, Real.cos, Real.sin, Real.pi, 1, 1, 1, 1⟩
          (setNeutrinoMasses 0 (-(5e-9))))
        NeutrinoType.Neutrino 1 0 0 1 *
      dmMatMat (⟨Real.sqrt, Real.arccos, Real.cos, Real.sin, Real.pi, 1, 1, 1, 1⟩ : Prims ℝ)
        (fun i j => if i = j then ⟨1, 0⟩ else ⟨0, 0⟩)
        (setNeutrinoMasses 0 (-(5e-9)))
        (prepareOrder ⟨Real.sqrt, Real.arccos, Real.cos, Real.sin, Real.pi, 1, 1, 1, 1⟩
          (setNeutrinoMasses 0 (-(5e-9))))
        NeutrinoType.Neutrino 1 0 0 2 = 0 := by
  rw [dmMatMat_degenerate_zero _ rfl rfl rfl rfl _ _ (5e-9) (by norm_num) _
    (by norm_num [setNeutrinoMasses, Fin.ext_iff]) (by norm_num [setNeutrinoMasses, Fin.ext_iff])
    (by norm_num [setNeutrinoMasses, Fin.ext_iff]) (by norm_num [setNeutrinoMasses, Fin.ext_iff]),
    mul_zero]

/-- **C3 (amended).** `setNeutrinoMasses` always stores an antisymmetric,
zero-diagonal mass-difference matrix; when both splittings are degenerate
(`dm12sq = dm23sq = 0`) the fixed epsilon `5.0e-9` separates the three
vacuum masses so that at zero density all three divisor products of
`get_product` are nonzero.  (The counterexample shows the divisors can
still vanish for other inputs, e.g. `dm23sq = -5.0e-9`, so "never zero"
does not hold in general.) -/
theorem C3_amended_eps_breaking (dm12sq dm23sq : ℝ) (P : Prims ℝ)
    (hsq : P.sqrtF = Real.sqrt) (hac : P.acosF = Real.arccos)
    (hcos : P.cosF = Real.cos) (hpi : P.piF = Real.pi)
    (U : Fin 3 → Fin 3 → CNum ℝ) (E : ℝ) :
    (∀ i j, setNeutrinoMasses dm12sq dm23sq i j = -(setNeutrinoMasses dm12sq dm23sq j i)) ∧
    (∀ i, setNeutrinoMasses dm12sq dm23sq i i = 0) ∧
    (dm12sq = 0 → dm23sq = 0 →
      ∀ k : Fin 3,
        dmMatMat P U (setNeutrinoMasses dm12sq dm23sq)
            (prepareOrder P (setNeutrinoMasses dm12sq dm23sq))
            NeutrinoType.Neutrino E 0 k (k+1) *
          dmMatMat P U (setNeutrinoMasses dm12sq dm23sq)
            (prepareOrder P (setNeutrinoMasses dm12sq dm23sq))
            NeutrinoType.Neutrino E 0 k (k+2) ≠ 0) := by
  refine ⟨?_, ?_, ?_⟩
  · intro i j
    fin_cases i <;> fin_cases j <;> simp [setNeutrinoMasses, Fin.ext_iff]
  · intro i
    fin_cases i <;> simp [setNeutrinoMasses, Fin.ext_iff]
  · intro h12 h23
    subst h12
    subst h23
    exact dmMatMat_eps_distinct P hsq hac hcos hpi U E (5e-9) (by norm_num) _
      (by norm_num [setNeutrinoMasses, Fin.ext_iff]) (by norm_num [setNeutrinoMasses, Fin.ext_iff])
      (by norm_num [setNeutrinoMasses, Fin.ext_iff]) (by norm_num [setNeutrinoMasses, Fin.ext_iff])
      (by norm_num [setNeutrinoMasses, Fin.ext_iff])

/-- Witness for **C3 (amended)** at the concrete degenerate input
`dm12sq = dm23sq = 0` with the genuine real primitives. -/
theorem C3_witness :
    (∀ i j, setNeutrinoMasses (0:ℝ) 0 i j = -(setNeutrinoMasses (0:ℝ) 0 j i)) ∧
    (∀ k : Fin 3,
      dmMatMat (⟨Real.sqrt, Real.arccos, Real.cos, Real.sin, Real.pi, 1, 1, 1, 1⟩ : Prims ℝ)
          (fun _ _ => ⟨1, 0⟩) (setNeutrinoMasses (0:ℝ) 0)
          (prepareOrder ⟨Real.sqrt, Real.arccos, Real.cos, Real.sin, Real.pi, 1, 1, 1, 1⟩
            (setNeutrinoMasses (0:ℝ) 0)) NeutrinoType.Neutrino 1 0 k (k+1) *
        dmMatMat (⟨Real.sqrt, Real.arccos, Real.cos, Real.sin, Real.pi, 1, 1, 1, 1⟩ : Prims ℝ)
          (fun _ _ => ⟨1, 0⟩) (setNeutrinoMasses (0:ℝ) 0)
          (prepareOrder ⟨Real.sqrt, Real.arccos, Real.cos, Real.sin, Real.pi, 1, 1, 1, 1⟩
            (setNeutrinoMasses (0:ℝ) 0)) NeutrinoType.Neutrino 1 0 k (k+2) ≠ 0) :=
  ⟨(C3_amended_eps_breaking 0 0
      ⟨Real.sqrt, Real.arccos, Real.cos, Real.sin, Real.pi, 1, 1, 1, 1⟩
      rfl rfl rfl rfl (fun _ _ => ⟨1, 0⟩) 1).1,
   (C3_amended_eps_breaking 0 0
      ⟨Real.sqrt, Real.arccos, Real.cos, Real.sin, Real.pi, 1, 1, 1, 1⟩
      rfl rfl rfl rfl (fun _ _ => ⟨1, 0⟩) 1).2.2 rfl rfl⟩

/-- **C6.** `setDensity` rejects any radii input that is not monotonic
with the error `"radii order messed up"`, and on success stores radii,
densities and electron fractions canonicalized to outer-to-inner order:
all three vectors are reversed exactly when the input was (somewhere
strictly) ascending, kept when it was nonincreasing, and in every case
the first stored radius is the largest — the `coslimit` thresholds being
computed from the canonicalized radii. -/
theorem C6_setDensity_monotonic_canonicalization (P : Prims α)
    (radii_ rhos_ yps_ : List α)
    (hr : rhos_.length = radii_.length) (hy : rhos_.length = yps_.length)
    (hnz : radii_.length ≠ 0) :
    (¬ Nondecr radii_ ∧ ¬ Nonincr radii_ →
      setDensity P radii_ rhos_ yps_ = Except.error "radii order messed up") ∧
    (∀ st, setDensity P radii_ rhos_ yps_ = Except.ok st →
      (Nondecr radii_ ∧ ¬ Nonincr radii_ →
        st.radii = radii_.reverse ∧ st.rhos = rhos_.reverse ∧ st.yps = yps_.reverse) ∧
      (Nonincr radii_ → st.radii = radii_ ∧ st.rhos = rhos_ ∧ st.yps = yps_) ∧
      st.coslimit = coslimitOf P st.radii ∧
      (∀ i, i < st.radii.length → st.radii.getD i 0 ≤ st.radii.getD 0 0)) := by
  have g1 : ¬(rhos_.length ≠ radii_.length) := by omega
  have g2 : ¬(rhos_.length ≠ yps_.length) := by omega
  have g3 : ¬(rhos_.length = 0 ∨ radii_.length = 0 ∨ yps_.length = 0) := by omega
  constructor
  · rintro ⟨hnd, hni⟩
    have h2 : 2 ≤ radii_.length := by
      by_contra hlt
      push_neg at hlt
      exact hnd (fun i hi => absurd hi (by omega))
    have hviol : densityOrderViolation radii_ = true := by
      rcases Bool.eq_false_or_eq_true (densityOrderViolation radii_) with hv | hv
      · exact hv
      · by_cases hs : 0 < radii_.getD 1 0 - radii_.getD 0 0
        · exact absurd (nondecr_of_no_violation_pos _ hs hv) hnd
        · exact absurd (nonincr_of_no_violation_neg _ hs hv) hni
    rw [setDensity, if_neg g1, if_neg g2, if_neg g3, if_pos ⟨h2, hviol⟩]
  · intro st hok
    rw [setDensity, if_neg g1, if_neg g2, if_neg g3] at hok
    by_cases hguard : 2 ≤ radii_.length ∧ densityOrderViolation radii_ = true
    · rw [if_pos hguard] at hok
      exact absurd hok (by simp)
    · rw [if_neg hguard] at hok
      have hst := (Except.ok.inj hok).symm
      subst hst
      dsimp only
      refine ⟨?_, ?_, rfl, ?_⟩
      · rintro ⟨hnd', hni'⟩
        have h2 : 2 ≤ radii_.length := by
          by_contra hlt
          push_neg at hlt
          exact hni' (fun i hi => absurd hi (by omega))
        have hv : densityOrderViolation radii_ = false := by
          rcases Bool.eq_false_or_eq_true (densityOrderViolation radii_) with hv | hv
          · exact absurd ⟨h2, hv⟩ hguard
          · exact hv
        have hs : 0 < radii_.getD 1 0 - radii_.getD 0 0 := by
          by_contra hs
          exact hni' (nonincr_of_no_violation_neg _ hs hv)
        exact ⟨canonFlip_pos _ _ h2 hs, canonFlip_pos _ _ h2 hs, canonFlip_pos _ _ h2 hs⟩
      · intro hni'
        by_cases h2 : 2 ≤ radii_.length
        · have hs : ¬ 0 < radii_.getD 1 0 - radii_.getD 0 0 := by
            intro hs
            have := hni' 0 (by omega)
            linarith
          exact ⟨canonFlip_neg _ _ hs, canonFlip_neg _ _ hs, canonFlip_neg _ _ hs⟩
        · push_neg at h2
          exact ⟨canonFlip_short _ _ h2, canonFlip_short _ _ h2, canonFlip_short _ _ h2⟩
      · intro i hi
        by_cases h2 : 2 ≤ radii_.length
        · have hv : densityOrderViolation radii_ = false := by
            rcases Bool.eq_false_or_eq_true (densityOrderViolation radii_) with hv | hv
            · exact absurd ⟨h2, hv⟩ hguard
            · exact hv
          by_cases hs : 0 < radii_.getD 1 0 - radii_.getD 0 0
          · have hnd := nondecr_of_no_violation_pos _ hs hv
            rw [canonFlip_pos _ _ h2 hs] at hi ⊢
            rw [List.length_reverse] at hi
            rw [getD_reverse _ _ hi, getD_reverse _ _ (by omega)]
            exact hnd.getD_mono _ _ (by omega) (by omega)
          · have hni := nonincr_of_no_violation_neg _ hs hv
            rw [canonFlip_neg _ _ hs] at hi ⊢
            exact hni.getD_anti 0 i (Nat.zero_le _) hi
        · push_neg at h2
          rw [canonFlip_short _ _ h2] at hi ⊢
          have : i = 0 := by omega
          subst this
          exact le_refl _

/-- Witness for **C6** at a concrete non-monotonic input. -/
theorem C6_witness :
    setDensity (⟨id, id, id, id, 0, 0, 0, 0, 0⟩ : Prims ℚ) [2, 1, 3] [4, 5, 6] [7, 8, 9] =
      Except.error "radii order messed up" :=
  (C6_setDensity_monotonic_canonicalization ⟨id, id, id, id, 0, 0, 0, 0, 0⟩
      [2, 1, 3] [4, 5, 6] [7, 8, 9] rfl rfl (by decide)).1
    ⟨fun h => absurd (h 0 (by decide)) (by decide),
     fun h => absurd (h 1 (by decide)) (by decide)⟩


/-- **C7.** For a layer of length exactly zero and zero phase offset, the
three phase arguments returned by `getArg` are all zero and the
transition amplitude returned by `get_transition_matrix` is the 3×3
identity matrix, for every energy, density and neutrino type — given
that the mixing matrix has orthonormal rows (`U·Uᴴ = 1`, true of every
PMNS matrix), that the math library satisfies `cos 0 = 1` and
`sin 0 = 0`, and that the three matter masses of `getMfast` are pairwise
distinct (the `get_product` divisors are nonzero). -/
theorem C7_zero_length_identity (P : Prims α) (U : Fin 3 → Fin 3 → CNum α)
    (DM : Fin 3 → Fin 3 → α) (order : Fin 3 → Fin 3) (type : NeutrinoType)
    (Enu rho : α) (junkA junkC : Fin 3 → Fin 3 → Fin 3 → CNum α)
    (hc : P.cosF 0 = 1) (hsin : P.sinF 0 = 0)
    (hU : toM U * Matrix.conjTranspose (toM U) = 1)
    (h01 : mMat P U DM order type Enu rho 0 ≠ mMat P U DM order type Enu rho 1)
    (h02 : mMat P U DM order type Enu rho 0 ≠ mMat P U DM order type Enu rho 2)
    (h12 : mMat P U DM order type Enu rho 1 ≠ mMat P U DM order type Enu rho 2) :
    (∀ k, getArg 0 Enu (dmMatVac P U DM order type Enu rho) 0 k = 0) ∧
    get_transition_matrix P U DM order type Enu rho 0 0 junkA =
      fun n m => if n = m then 1 else 0 := by
  refine ⟨fun k => getArg_zero _ _ _, ?_⟩
  rw [get_transition_matrix, getA_eq_recombine P U 0 Enu rho _ _ type junkA junkC]
  have hphase : ∀ k, phaseC P (getArg 0 Enu (dmMatVac P U DM order type Enu rho) 0 k) =
      (1 : CNum α) := by
    intro k
    rw [getArg_zero, CNum.ext_iff]
    exact ⟨by simp [phaseC, hc], by simp [phaseC, hsin]⟩
  have key : toM (fun n m => ∑ k : Fin 3,
      getC P U Enu rho (dmMatVac P U DM order type Enu rho)
        (dmMatMat P U DM order type Enu rho) type 0 junkC k n m) = 1 := by
    rw [show (fun n m => ∑ k : Fin 3,
        getC P U Enu rho (dmMatVac P U DM order type Enu rho)
          (dmMatMat P U DM order type Enu rho) type 0 junkC k n m) =
      (fun n m =>
        getC P U Enu rho (dmMatVac P U DM order type Enu rho)
          (dmMatMat P U DM order type Enu rho) type 0 junkC 0 n m +
        getC P U Enu rho (dmMatVac P U DM order type Enu rho)
          (dmMatMat P U DM order type Enu rho) type 0 junkC 1 n m +
        getC P U Enu rho (dmMatVac P U DM order type Enu rho)
          (dmMatMat P U DM order type Enu rho) type 0 junkC 2 n m) from
      funext fun n => funext fun m => Fin.sum_univ_three _]
    have hsplit : toM (fun n m =>
        getC P U Enu rho (dmMatVac P U DM order type Enu rho)
          (dmMatMat P U DM order type Enu rho) type 0 junkC 0 n m +
        getC P U Enu rho (dmMatVac P U DM order type Enu rho)
          (dmMatMat P U DM order type Enu rho) type 0 junkC 1 n m +
        getC P U Enu rho (dmMatVac P U DM order type Enu rho)
          (dmMatMat P U DM order type Enu rho) type 0 junkC 2 n m) =
        toM (fun n m => getC P U Enu rho (dmMatVac P U DM order type Enu rho)
          (dmMatMat P U DM order type Enu rho) type 0 junkC 0 n m) +
        toM (fun n m => getC P U Enu rho (dmMatVac P U DM order type Enu rho)
          (dmMatMat P U DM order type Enu rho) type 0 junkC 1 n m) +
        toM (fun n m => getC P U Enu rho (dmMatVac P U DM order type Enu rho)
          (dmMatMat P U DM order type Enu rho) type 0 junkC 2 n m) := rfl
    rw [hsplit, getC_toM, getC_toM, getC_toM,
      get_product_toM P U DM order type Enu rho ((0:α)/0) 0,
      get_product_toM P U DM order type Enu rho ((0:α)/0) 1,
      get_product_toM P U DM order type Enu rho ((0:α)/0) 2]
    simp only [show ((0:Fin 3)+1 : Fin 3) = 1 from rfl, show ((0:Fin 3)+2 : Fin 3) = 2 from rfl,
      show ((1:Fin 3)+1 : Fin 3) = 2 from rfl, show ((1:Fin 3)+2 : Fin 3) = 0 from rfl,
      show ((2:Fin 3)+1 : Fin 3) = 0 from rfl, show ((2:Fin 3)+2 : Fin 3) = 1 from rfl]
    rw [← add_mul, ← add_mul, ← mul_add, ← mul_add,
      lagrange_sum (Bmat P U DM type Enu rho)
        (mMat P U DM order type Enu rho 0) (mMat P U DM order type Enu rho 1)
        (mMat P U DM order type Enu rho 2) h01 h02 h12, mul_one, hU]
  funext n m
  have hconv := congrFun (congrFun key n) m
  simp only [recombineExpansion, hphase, one_mul]
  simpa [toM, Matrix.one_apply] using hconv

/-- Witness for **C7** at a concrete rational instantiation (identity
mixing matrix, zero density, math primitives chosen so the three matter
masses come out `0, 1, 2`). -/
theorem C7_witness :
    (Prims.cosF (⟨id, fun x => if x = 0 then 3 else 0,
        fun x => if x = 1 then 1/2 else if x = -1 then 0 else if x = 3 then -1/2 else 1,
        fun _ => 0, 3, 1, 1, 1, 1⟩ : Prims ℚ) 0 = 1) ∧
    get_transition_matrix
        (⟨id, fun x => if x = 0 then 3 else 0,
          fun x => if x = 1 then 1/2 else if x = -1 then 0 else if x = 3 then -1/2 else 1,
          fun _ => 0, 3, 1, 1, 1, 1⟩ : Prims ℚ)
        (fun i j => if i = j then ⟨1, 0⟩ else ⟨0, 0⟩)
        (fun i j => if i = 0 ∧ j = 1 then -1 else if i = 0 ∧ j = 2 then -2 else 0)
        id NeutrinoType.Neutrino 1 0 0 0 (fun _ _ _ => 0) =
      fun n m => if n = m then 1 else 0 :=
  ⟨by norm_num,
   (C7_zero_length_identity
      (⟨id, fun x => if x = 0 then 3 else 0,
        fun x => if x = 1 then 1/2 else if x = -1 then 0 else if x = 3 then -1/2 else 1,
        fun _ => 0, 3, 1, 1, 1, 1⟩ : Prims ℚ)
      (fun i j => if i = j then ⟨1, 0⟩ else ⟨0, 0⟩)
      (fun i j => if i = 0 ∧ j = 1 then -1 else if i = 0 ∧ j = 2 then -2 else 0)
      id NeutrinoType.Neutrino 1 0 (fun _ _ _ => 0) (fun _ _ _ => 0)
      (by norm_num) rfl
      (by
        funext i j
        fin_cases i <;> fin_cases j <;>
          (rw [CNum.ext_iff]; constructor <;>
            simp [toM, Matrix.mul_apply, Matrix.conjTranspose_apply, CNum.star_def,
              CNum.conj, Fin.sum_univ_three, Matrix.one_apply])
        )
      (by norm_num [mMat, mMatU, mfTmp, mfTheta, mfArg, mfArgtmp, mfAlpha, mfBeta,
        mfGamma, facOf, Fin.ext_iff])
      (by norm_num [mMat, mMatU, mfTmp, mfTheta, mfArg, mfArgtmp, mfAlpha, mfBeta,
        mfGamma, facOf, Fin.ext_iff])
      (by norm_num [mMat, mMatU, mfTmp, mfTheta, mfArg, mfArgtmp, mfAlpha, mfBeta,
        mfGamma, facOf, Fin.ext_iff])).2⟩

/-- **C5.** During `calculate`, if the number of crossed layers of any
cosine bin exceeds the fixed maximum of 8 layers, the entire run
terminates fatally (`std::exit`, modelled as a run-level `Except.error`),
not recovered per bin; when every bin's layer count is within the limit
no abort occurs and each bin's nine probabilities are written into the
result buffer. -/
theorem C5_maxlayer_abort (P : Prims α) (U : Fin 3 → Fin 3 → CNum α)
    (DM : Fin 3 → Fin 3 → α) (A : CalcIn α) (buf0 : ℕ → α) :
    ((∃ ic, ic < A.n_cosines ∧ 8 < A.maxlayers ic) →
      calculate P U DM A buf0 =
        Except.error "Error: MaxLayer given by nMaxLayers. Please increase nMaxLayers") ∧
    ((∀ ic, ic < A.n_cosines → A.maxlayers ic ≤ 8) →
      calculate P U DM A buf0 = Except.ok (calcResult P U DM A buf0) ∧
      ∀ ic, ic < A.n_cosines → ∀ ie, ie < A.n_energies → ∀ i j : Fin 3,
        calcResult P U DM A buf0
            (ic * A.n_energies * 9 + ie * 9 + ((i : ℕ) * 3 + (j : ℕ))) =
          binProb P U DM A ic ie j i) := by
  constructor
  · rintro ⟨ic, hlt, hml⟩
    rw [calculate, if_pos]
    rw [List.any_eq_true]
    exact ⟨ic, List.mem_range.mpr hlt, decide_eq_true hml⟩
  · intro hall
    have h1 : ¬((List.range A.n_cosines).any (fun ic => decide (8 < A.maxlayers ic)) = true) := by
      rw [List.any_eq_true]
      rintro ⟨ic, hm, hd⟩
      rw [List.mem_range] at hm
      rw [decide_eq_true_eq] at hd
      have := hall ic hm
      omega
    have h2 : ¬(debugMismatch P U DM A = true) := by
      rw [debugMismatch_false]
      simp
    rw [calculate, if_neg h1, if_neg h2]
    exact ⟨rfl, fun ic hic ie hie i j => calcResult_read P U DM A buf0 ic ie hic hie i j⟩

/-- Witness for **C5** at a concrete over-limit configuration. -/
theorem C5_witness :
    calculate (⟨id, id, id, id, 0, 0, 0, 0, 1⟩ : Prims ℚ) (fun _ _ => ⟨0, 0⟩)
        (fun _ _ => 0)
        ⟨NeutrinoType.Neutrino, fun _ => 0, 1, fun _ => 1, 1, fun _ => 0, fun _ => 0,
          fun _ => 9, 0, fun _ => 0, fun _ => 0, false⟩ (fun _ => 0) =
      Except.error "Error: MaxLayer given by nMaxLayers. Please increase nMaxLayers" :=
  (C5_maxlayer_abort _ _ _ _ _).1 ⟨0, by decide, by decide⟩

/-- **C8.** The bin-parallel (CPU) backend writes
`P(before -> after) = Prob[after][before]` of bin `(ic, ie)` at
`result[ic·nE·9 + ie·9 + (before·3 + after)]`, and `getProbability`
returns exactly the value stored at that offset of the result buffer. -/
theorem C8_result_layout (P : Prims α) (U : Fin 3 → Fin 3 → CNum α)
    (DM : Fin 3 → Fin 3 → α) (A : CalcIn α) (buf0 : ℕ → α) (ic ie : ℕ)
    (hic : ic < A.n_cosines) (hie : ie < A.n_energies) (before after : Fin 3) :
    calcResult P U DM A buf0
        (ic * A.n_energies * 9 + ie * 9 + ((before : ℕ) * 3 + (after : ℕ))) =
      binProb P U DM A ic ie after before ∧
    getProbability (calcResult P U DM A buf0) A.n_cosines A.n_energies ic ie
        (probTypeIdx before after) =
      Except.ok (calcResult P U DM A buf0
        (ic * A.n_energies * 9 + ie * 9 + ((before : ℕ) * 3 + (after : ℕ)))) := by
  refine ⟨calcResult_read P U DM A buf0 ic ie hic hie before after, ?_⟩
  rw [getProbability, if_neg (by omega)]
  rfl

/-- Witness for **C8** at a concrete in-range bin. -/
theorem C8_witness :
    calcResult (⟨id, id, id, id, 0, 0, 0, 0, 1⟩ : Prims ℚ) (fun _ _ => ⟨0, 0⟩)
        (fun _ _ => 0)
        ⟨NeutrinoType.Neutrino, fun _ => 0, 1, fun _ => 1, 1, fun _ => 0, fun _ => 0,
          fun _ => 0, 0, fun _ => 0, fun _ => 0, false⟩ (fun _ => 0)
        (0 * 1 * 9 + 0 * 9 + ((1 : Fin 3) : ℕ) * 3 + ((2 : Fin 3) : ℕ)) =
      binProb (⟨id, id, id, id, 0, 0, 0, 0, 1⟩ : Prims ℚ) (fun _ _ => ⟨0, 0⟩)
        (fun _ _ => 0)
        ⟨NeutrinoType.Neutrino, fun _ => 0, 1, fun _ => 1, 1, fun _ => 0, fun _ => 0,
          fun _ => 0, 0, fun _ => 0, fun _ => 0, false⟩ 0 0 2 1 :=
  ((C8_result_layout (⟨id, id, id, id, 0, 0, 0, 0, 1⟩ : Prims ℚ) (fun _ _ => ⟨0, 0⟩)
      (fun _ _ => 0)
      ⟨NeutrinoType.Neutrino, fun _ => 0, 1, fun _ => 1, 1, fun _ => 0, fun _ => 0,
        fun _ => 0, 0, fun _ => 0, fun _ => 0, false⟩ (fun _ => 0) 0 0
      (by decide) (by decide) 1 2).1)

/-- **C2.** Production-height averaging is only active when the
height-averaging flag is set: when it is not, the cross-term weighting
tensor `totalLenShiftFactor` is the identity in the two expansion
indices for every bin, so each output probability is the pure sum over
expansion terms of squared amplitude magnitudes, with zero cross-term
contribution. -/
theorem C2_no_averaging_pure_squares (P : Prims α) (U : Fin 3 → Fin 3 → CNum α)
    (DM : Fin 3 → Fin 3 → α) (A : CalcIn α) (ic ie : ℕ)
    (hflag : A.useAvg = false) :
    (∀ e1 e2 f, totalLenShiftFactor P U DM A ic ie e1 e2 f =
      if e1 = e2 then 1 else 0) ∧
    (∀ a b, binProb P U DM A ic ie a b =
      ∑ k : Fin 3, CNum.normSq (binProduct P U DM A ic ie k a b)) := by
  have hshift : ∀ e1 e2 f, totalLenShiftFactor P U DM A ic ie e1 e2 f =
      if e1 = e2 then 1 else 0 := by
    intro e1 e2 f
    rw [totalLenShiftFactor, hflag]
    simp only [Bool.false_eq_true, if_false]
    split_ifs <;> rfl
  refine ⟨hshift, fun a b => ?_⟩
  rw [binProb]
  have hzero : ∀ iE jE : Fin 3, ((jE : ℕ) < (iE : ℕ)) →
      binCross P U DM A ic ie iE jE a b = 0 := by
    intro iE jE hlt
    have hne : ¬(iE = jE) := by
      intro h
      subst h
      omega
    rw [binCross, hshift, if_neg hne]
    simp
  have : (∑ iE : Fin 3, ∑ jE : Fin 3,
      if (jE : ℕ) < (iE : ℕ) then binCross P U DM A ic ie iE jE a b else 0) = 0 := by
    apply Finset.sum_eq_zero
    intro iE _
    apply Finset.sum_eq_zero
    intro jE _
    split_ifs with h
    · exact hzero iE jE h
    · rfl
  rw [this, add_zero]

/-- Witness for **C2** with the averaging flag off. -/
theorem C2_witness :
    binProb (⟨id, id, id, id, 0, 0, 0, 0, 1⟩ : Prims ℚ) (fun _ _ => ⟨0, 0⟩)
        (fun _ _ => 0)
        ⟨NeutrinoType.Neutrino, fun _ => 0, 1, fun _ => 1, 1, fun _ => 0, fun _ => 0,
          fun _ => 0, 0, fun _ => 0, fun _ => 0, false⟩ 0 0 0 1 =
      ∑ k : Fin 3, CNum.normSq
        (binProduct (⟨id, id, id, id, 0, 0, 0, 0, 1⟩ : Prims ℚ) (fun _ _ => ⟨0, 0⟩)
          (fun _ _ => 0)
          ⟨NeutrinoType.Neutrino, fun _ => 0, 1, fun _ => 1, 1, fun _ => 0, fun _ => 0,
            fun _ => 0, 0, fun _ => 0, fun _ => 0, false⟩ 0 0 k 0 1) :=
  (C2_no_averaging_pure_squares (⟨id, id, id, id, 0, 0, 0, 0, 1⟩ : Prims ℚ)
    (fun _ _ => ⟨0, 0⟩) (fun _ _ => 0)
    ⟨NeutrinoType.Neutrino, fun _ => 0, 1, fun _ => 1, 1, fun _ => 0, fun _ => 0,
      fun _ => 0, 0, fun _ => 0, fun _ => 0, false⟩ 0 0 rfl).2 0 1

/-- **C10.** `getProbabilityArr` fills the output array in energy-major
order with cosine fastest: entry `ie·n_cosines + ic` equals the value
`getProbability(ic, ie, t)` reads — the exported array is transposed
relative to the internal cosine-major result layout. -/
theorem C10_probability_arr_transposed (resultList : ℕ → α) (n_cosines n_energies : ℕ)
    (t : Fin 9) (ic ie : ℕ) (hic : ic < n_cosines) (hie : ie < n_energies) :
    (getProbabilityArr resultList n_cosines n_energies t).getD (ie * n_cosines + ic) 0 =
      resultList (ic * n_energies * 9 + ie * 9 + (t : ℕ)) ∧
    getProbability resultList n_cosines n_energies ic ie t =
      Except.ok (resultList (ic * n_energies * 9 + ie * 9 + (t : ℕ))) := by
  constructor
  · rw [getProbabilityArr]
    rw [flatten_getD _ n_cosines (by
        intro l hl
        rw [List.mem_map] at hl
        obtain ⟨e, -, rfl⟩ := hl
        simp) ie ic (by simpa using hie) hic]
    have h1 : ((List.range n_energies).map (fun index_energy =>
        (List.range n_cosines).map (fun index_cosine =>
          resultList (index_cosine * n_energies * 9 + index_energy * 9 + (t : ℕ))))).getD
          ie [] =
        (List.range n_cosines).map (fun index_cosine =>
          resultList (index_cosine * n_energies * 9 + ie * 9 + (t : ℕ))) := by
      rw [List.getD_eq_getElem _ _ (by simpa using hie), List.getElem_map,
        List.getElem_range]
    rw [h1, List.getD_eq_getElem _ _ (by simpa using hic), List.getElem_map,
      List.getElem_range]
  · rw [getProbability, if_neg (by omega)]

/-- Witness for **C10** at a concrete in-range bin. -/
theorem C10_witness :
    (getProbabilityArr (fun n => (n : ℚ)) 2 2 4).getD (1 * 2 + 0) 0 =
      ((0 * 2 * 9 + 1 * 9 + ((4 : Fin 9) : ℕ) : ℕ) : ℚ) := by
  exact (C10_probability_arr_transposed (fun n => (n : ℚ)) 2 2 4 0 1
    (by decide) (by decide)).1

/-- **C9.** Each row of a computed probability matrix — fixed initial
flavor, summed over the three final flavors — sums to exactly `1` in
exact arithmetic (hence within numerical tolerance in floating point),
both with and without production-height averaging: the flavor-summed
cross terms vanish identically whatever the shift tensor is, so no
hypothesis on the averaging flag is needed.  Hypotheses: the mixing
matrix has orthonormal rows, and at every layer of the bin the solver
masses satisfy the characteristic equation of the effective
Hamiltonian, are pairwise distinct, and the circle identity holds at
the layer phases. -/
theorem C9_probability_row_sums_one (P : Prims α) (U : Fin 3 → Fin 3 → CNum α)
    (DM : Fin 3 → Fin 3 → α) (A : CalcIn α) (ic ie : ℕ)
    (hU : toM U * Matrix.conjTranspose (toM U) = 1)
    (hlayer : ∀ l, l < A.maxlayers ic + 1 →
      ((Bmat P U DM A.type (A.energylist ie) (layerRho A ic l) -
          scalC (mMat P U DM (prepareOrder P DM) A.type (A.energylist ie) (layerRho A ic l) 0)) *
        (Bmat P U DM A.type (A.energylist ie) (layerRho A ic l) -
          scalC (mMat P U DM (prepareOrder P DM) A.type (A.energylist ie) (layerRho A ic l) 1)) *
        (Bmat P U DM A.type (A.energylist ie) (layerRho A ic l) -
          scalC (mMat P U DM (prepareOrder P DM) A.type (A.energylist ie) (layerRho A ic l) 2)) = 0) ∧
      (mMat P U DM (prepareOrder P DM) A.type (A.energylist ie) (layerRho A ic l) 0 ≠
        mMat P U DM (prepareOrder P DM) A.type (A.energylist ie) (layerRho A ic l) 1 ∧
       mMat P U DM (prepareOrder P DM) A.type (A.energylist ie) (layerRho A ic l) 0 ≠
        mMat P U DM (prepareOrder P DM) A.type (A.energylist ie) (layerRho A ic l) 2 ∧
       mMat P U DM (prepareOrder P DM) A.type (A.energylist ie) (layerRho A ic l) 1 ≠
        mMat P U DM (prepareOrder P DM) A.type (A.energylist ie) (layerRho A ic l) 2) ∧
      (∀ k : Fin 3, P.cosF ((layerExp P U DM A ic ie l).1 k) ^ 2 +
        P.sinF ((layerExp P U DM A ic ie l).1 k) ^ 2 = 1)) :
    ∀ b : Fin 3, (∑ a : Fin 3, binProb P U DM A ic ie a b) = 1 := by
  intro b
  obtain ⟨hchar0, ⟨h01, h02, h12⟩, -⟩ := hlayer 0 (Nat.succ_pos _)
  have hVV : Matrix.conjTranspose (toM U) * toM U = 1 := Matrix.mul_eq_one_comm.mp hU
  have hF := binFinalTM_unitary P U DM A ic ie hU hlayer
  have hFh : Matrix.conjTranspose (toM (binFinalTM P U DM A ic ie)) *
      toM (binFinalTM P U DM A ic ie) = 1 := Matrix.mul_eq_one_comm.mp hF
  have hsq : ∀ k : Fin 3,
      (∑ a : Fin 3, CNum.normSq (binProduct P U DM A ic ie k a b)) =
      ((toM U *
        (Pproj (Bmat P U DM A.type (A.energylist ie) (layerRho A ic 0))
            (mMat P U DM (prepareOrder P DM) A.type (A.energylist ie) (layerRho A ic 0)) k *
         Pproj (Bmat P U DM A.type (A.energylist ie) (layerRho A ic 0))
            (mMat P U DM (prepareOrder P DM) A.type (A.energylist ie) (layerRho A ic 0)) k) *
        Matrix.conjTranspose (toM U)) b b).re := by
    intro k
    have h1 := conjTranspose_mul_diag (binProduct P U DM A ic ie k) b
    rw [binProduct_gram P U DM A ic ie hVV hFh k k] at h1
    rw [h1]
    rfl
  have hpart1 : (∑ k : Fin 3, ∑ a : Fin 3,
      CNum.normSq (binProduct P U DM A ic ie k a b)) = 1 := by
    rw [Fin.sum_univ_three, hsq 0, hsq 1, hsq 2,
      Pproj_idem _ _ hchar0 0 h01 h02, Pproj_idem _ _ hchar0 1 h12 (Ne.symm h01),
      Pproj_idem _ _ hchar0 2 (Ne.symm h02) (Ne.symm h12)]
    have hto1 : toM U *
        Pproj (Bmat P U DM A.type (A.energylist ie) (layerRho A ic 0))
          (mMat P U DM (prepareOrder P DM) A.type (A.energylist ie) (layerRho A ic 0)) 0 *
        Matrix.conjTranspose (toM U) +
        toM U *
        Pproj (Bmat P U DM A.type (A.energylist ie) (layerRho A ic 0))
          (mMat P U DM (prepareOrder P DM) A.type (A.energylist ie) (layerRho A ic 0)) 1 *
        Matrix.conjTranspose (toM U) +
        toM U *
        Pproj (Bmat P U DM A.type (A.energylist ie) (layerRho A ic 0))
          (mMat P U DM (prepareOrder P DM) A.type (A.energylist ie) (layerRho A ic 0)) 2 *
        Matrix.conjTranspose (toM U) = 1 := by
      rw [← add_mul, ← add_mul, ← mul_add, ← mul_add,
        Pproj_sum (Bmat P U DM A.type (A.energylist ie) (layerRho A ic 0))
          (mMat P U DM (prepareOrder P DM) A.type (A.energylist ie) (layerRho A ic 0))
          h01 h02 h12, mul_one, hU]
    calc ((toM U *
          Pproj (Bmat P U DM A.type (A.energylist ie) (layerRho A ic 0))
            (mMat P U DM (prepareOrder P DM) A.type (A.energylist ie) (layerRho A ic 0)) 0 *
          Matrix.conjTranspose (toM U)) b b).re +
        ((toM U *
          Pproj (Bmat P U DM A.type (A.energylist ie) (layerRho A ic 0))
            (mMat P U DM (prepareOrder P DM) A.type (A.energylist ie) (layerRho A ic 0)) 1 *
          Matrix.conjTranspose (toM U)) b b).re +
        ((toM U *
          Pproj (Bmat P U DM A.type (A.energylist ie) (layerRho A ic 0))
            (mMat P U DM (prepareOrder P DM) A.type (A.energylist ie) (layerRho A ic 0)) 2 *
          Matrix.conjTranspose (toM U)) b b).re
        = (((toM U *
            Pproj (Bmat P U DM A.type (A.energylist ie) (layerRho A ic 0))
              (mMat P U DM (prepareOrder P DM) A.type (A.energylist ie) (layerRho A ic 0)) 0 *
            Matrix.conjTranspose (toM U)) +
           (toM U *
            Pproj (Bmat P U DM A.type (A.energylist ie) (layerRho A ic 0))
              (mMat P U DM (prepareOrder P DM) A.type (A.energylist ie) (layerRho A ic 0)) 1 *
            Matrix.conjTranspose (toM U)) +
           (toM U *
            Pproj (Bmat P U DM A.type (A.energylist ie) (layerRho A ic 0))
              (mMat P U DM (prepareOrder P DM) A.type (A.energylist ie) (layerRho A ic 0)) 2 *
            Matrix.conjTranspose (toM U))) b b).re := by
          simp [Matrix.add_apply]
      _ = ((1 : Matrix (Fin 3) (Fin 3) (CNum α)) b b).re := by rw [hto1]
      _ = 1 := by simp [Matrix.one_apply]
  have hcross : ∀ iE jE : Fin 3, (jE : ℕ) < (iE : ℕ) →
      (∑ a : Fin 3, binCross P U DM A ic ie iE jE a b) = 0 := by
    intro iE jE hlt
    have hne : jE ≠ iE := by
      intro h
      subst h
      omega
    rw [binCross_rowsum, binProduct_gram P U DM A ic ie hVV hFh jE iE,
      Pproj_orth (Bmat P U DM A.type (A.energylist ie) (layerRho A ic 0))
        (mMat P U DM (prepareOrder P DM) A.type (A.energylist ie) (layerRho A ic 0))
        hchar0 jE iE hne]
    simp
  have hpart2 : (∑ a : Fin 3, ∑ iE : Fin 3, ∑ jE : Fin 3,
      if (jE : ℕ) < (iE : ℕ) then binCross P U DM A ic ie iE jE a b else 0) = 0 := by
    rw [Finset.sum_comm]
    refine Finset.sum_eq_zero fun iE _ => ?_
    rw [Finset.sum_comm]
    refine Finset.sum_eq_zero fun jE _ => ?_
    by_cases hlt : (jE : ℕ) < (iE : ℕ)
    · simp only [if_pos hlt]
      exact hcross iE jE hlt
    · simp only [if_neg hlt, Finset.sum_const_zero]
  have hexp : (∑ a : Fin 3, binProb P U DM A ic ie a b) =
      (∑ a : Fin 3, ∑ k : Fin 3, CNum.normSq (binProduct P U DM A ic ie k a b)) +
      (∑ a : Fin 3, ∑ iE : Fin 3, ∑ jE : Fin 3,
        if (jE : ℕ) < (iE : ℕ) then binCross P U DM A ic ie iE jE a b else 0) := by
    simp only [binProb]
    rw [Finset.sum_add_distrib]
  rw [hexp,
    show (∑ a : Fin 3, ∑ k : Fin 3, CNum.normSq (binProduct P U DM A ic ie k a b)) =
      ∑ k : Fin 3, ∑ a : Fin 3, CNum.normSq (binProduct P U DM A ic ie k a b) from
      Finset.sum_comm,
    hpart1, hpart2, add_zero]

/-- Witness for **C9**: a concrete single-bin configuration (zenith
cosine `0`, energy `1`, single atmosphere layer, identity mixing) whose
probability row sums evaluate to `1`. -/
theorem C9_witness :
    (∑ a : Fin 3,
      binProb (⟨id, fun x => if x = 0 then 3 else 0,
          fun x => if x = 1 then 1/2 else if x = -1 then 0 else if x = 3 then -1/2 else 1,
          fun _ => 0, 3, 1, 1, 1, 1⟩ : Prims ℚ)
        (fun i j => if i = j then ⟨1, 0⟩ else ⟨0, 0⟩)
        (fun i j => if i = 0 ∧ j = 1 then -1 else if i = 0 ∧ j = 2 then -2
          else if i = 1 ∧ j = 0 then 1 else if i = 2 ∧ j = 0 then 2 else 0)
        ⟨NeutrinoType.Neutrino, fun _ => 0, 1, fun _ => 1, 1, fun _ => 0, fun _ => 0,
          fun _ => 0, 0, fun _ => 0, fun _ => 0, false⟩ 0 0 a 0) = 1 :=
  C9_probability_row_sums_one (⟨id, fun x => if x = 0 then 3 else 0,
      fun x => if x = 1 then 1/2 else if x = -1 then 0 else if x = 3 then -1/2 else 1,
      fun _ => 0, 3, 1, 1, 1, 1⟩ : Prims ℚ)
    (fun i j => if i = j then ⟨1, 0⟩ else ⟨0, 0⟩)
    (fun i j => if i = 0 ∧ j = 1 then -1 else if i = 0 ∧ j = 2 then -2
      else if i = 1 ∧ j = 0 then 1 else if i = 2 ∧ j = 0 then 2 else 0)
    ⟨NeutrinoType.Neutrino, fun _ => 0, 1, fun _ => 1, 1, fun _ => 0, fun _ => 0,
      fun _ => 0, 0, fun _ => 0, fun _ => 0, false⟩ 0 0
    (by
      funext i j
      fin_cases i <;> fin_cases j <;>
        (rw [CNum.ext_iff]; constructor <;>
          simp [toM, Matrix.mul_apply, Matrix.conjTranspose_apply, CNum.star_def,
            CNum.conj, Fin.sum_univ_three, Matrix.one_apply]))
    (by
      intro l hl
      have hl0 : l = 0 := Nat.lt_one_iff.mp hl
      subst hl0
      refine ⟨?_, ⟨?_, ?_, ?_⟩, ?_⟩
      · funext i j
        fin_cases i <;> fin_cases j <;>
          (rw [CNum.ext_iff]; constructor <;>
            norm_num [Bmat, scalC, mMat, mMatU, mfTmp, mfTheta, mfArg, mfArgtmp,
              mfAlpha, mfBeta, mfGamma, facOf, prepareOrder, mMatV, pvTheta, pvArg,
              pvArgtmp, pvTmp, pvAlpha, pvBeta, layerRho, getDensityOfLayer,
              Matrix.mul_apply, Matrix.sub_apply, Matrix.smul_apply, Matrix.one_apply,
              Fin.sum_univ_three, Fin.ext_iff, smul_eq_mul])
      · norm_num [mMat, mMatU, mfTmp, mfTheta, mfArg, mfArgtmp, mfAlpha, mfBeta,
          mfGamma, facOf, prepareOrder, mMatV, pvTheta, pvArg, pvArgtmp, pvTmp,
          pvAlpha, pvBeta, layerRho, getDensityOfLayer, Fin.ext_iff]
      · norm_num [mMat, mMatU, mfTmp, mfTheta, mfArg, mfArgtmp, mfAlpha, mfBeta,
          mfGamma, facOf, prepareOrder, mMatV, pvTheta, pvArg, pvArgtmp, pvTmp,
          pvAlpha, pvBeta, layerRho, getDensityOfLayer, Fin.ext_iff]
      · norm_num [mMat, mMatU, mfTmp, mfTheta, mfArg, mfArgtmp, mfAlpha, mfBeta,
          mfGamma, facOf, prepareOrder, mMatV, pvTheta, pvArg, pvArgtmp, pvTmp,
          pvAlpha, pvBeta, layerRho, getDensityOfLayer, Fin.ext_iff]
      · intro k
        fin_cases k <;>
          norm_num [layerExp, get_transition_matrix_expansion, getArg, layerDist,
            getTraversedDistanceOfLayer, pathLengthOf, binPathLength, totalEarthLength,
            LoEfac, layerRho, getDensityOfLayer, Fin.ext_iff])
    0
